import Mathlib

set_option maxRecDepth 100000

/-!
Shallow embedding of the tiled-canvas engine of `src/paint_x.py` (class
`Canvas`), together with theorems checking the natural-language
specification against it.

Modelling conventions:
* Python `float` arithmetic is modelled exactly over `ℚ` (the float
  literals `0.3`, `0.6`, `1.5`, `1.2`, `0.05` become the rationals
  `3/10`, `6/10`, `15/10`, `6/5`, `1/20`).
* A Python `dict` is modelled as an insertion-ordered association list
  with unique keys: assignment keeps the position of an existing key and
  appends a fresh one, `pop` removes the entry, iteration follows list
  order.  This matches CPython dict semantics exactly.
* `time.time()` is modelled by a logical clock `clock : ℕ` that strictly
  increases at each read, an idealisation of a non-decreasing wall
  clock; it is only ever compared, which is what the LRU policy does.
* A `QPixmap` tile buffer is modelled by the list of drawing operations
  applied to it plus the dirty flag; rasterised pixel contents are
  outside the embedding.
* Qt font metrics, trigonometry in `QTransform.rotate` and
  `math.atan2`/`math.sqrt` are modelled over `ℝ`; the text extent that
  `fontMetrics().boundingRect` would return is carried on the item.
-/

abbrev TileKey := ℤ × ℤ

/-- Lookup in an insertion-ordered association list (Python `d[k]` / `d.get`). -/
def alookup {α : Type} : List (TileKey × α) → TileKey → Option α
  | [], _ => none
  | p :: r, k => if p.1 = k then some p.2 else alookup r k

/-- Key membership (Python `k in d`). -/
def hasKey {α : Type} (l : List (TileKey × α)) (k : TileKey) : Bool :=
  (alookup l k).isSome

/-- Python `d[k] = v`: update in place if present, else append. -/
def upsert {α : Type} (l : List (TileKey × α)) (k : TileKey) (v : α) : List (TileKey × α) :=
  if hasKey l k then l.map (fun p => if p.1 = k then (k, v) else p) else l ++ [(k, v)]

/-- Python `d.pop(k, None)`: drop the entry with key `k`, keep order. -/
def eraseKey {α : Type} (l : List (TileKey × α)) (k : TileKey) : List (TileKey × α) :=
  l.filter (fun p => decide (p.1 ≠ k))

/-- Membership in a key list (Python `k in visible` on the set of keys). -/
def memKey (l : List TileKey) (k : TileKey) : Bool :=
  l.any (fun j => decide (j = k))

/-- Keys of an association list are pairwise distinct (a Python dict invariant). -/
def NodupKeys {α : Type} (l : List (TileKey × α)) : Prop :=
  (l.map Prod.fst).Nodup

/-- The tools of `Canvas.tool`. -/
inductive Tool
  | pen | brush | rectangle | circle | line | eraser | text | select
deriving DecidableEq

/-- Mouse buttons as far as the canvas event handlers look at them. -/
inductive MButton
  | left | middle | nobutton
deriving DecidableEq

/-- One painter operation recorded on a tile buffer by the freehand
rasteriser (`draw_line_between_points`): the segment endpoints in
tile-local coordinates, the pen width, the painter opacity, the pen
color, and whether the composition mode was `Clear` (eraser). -/
structure DrawOp where
  p1 : ℚ × ℚ
  p2 : ℚ × ℚ
  width : ℚ
  opacity : ℚ
  color : String
  eraseMode : Bool
deriving DecidableEq

/-- `CanvasTile`: a `(size+2)×(size+2)` transparent buffer plus dirty flag.
The buffer is modelled by its list of recorded drawing operations. -/
structure CanvasTile where
  size : ℤ
  dirty : Bool
  ops : List DrawOp
deriving DecidableEq

/-- A freshly constructed `CanvasTile(size)`: transparent, not dirty. -/
def blankTile (sz : ℤ) : CanvasTile :=
  { size := sz, dirty := false, ops := [] }

/-- `TextItem` of the source, with Qt font metrics abstracted: `fontW`
and `fontH` stand for the width and height that
`fontMetrics().boundingRect(text)` reports for the item font. -/
structure TextItem where
  text : String
  pos : ℚ × ℚ
  fontW : ℚ
  fontH : ℚ
  color : String
  scale : ℚ
  rotation : ℚ
  selected : Bool
  dragging : Bool
  dragStart : Option (ℚ × ℚ)
  originalPos : Option (ℚ × ℚ)
  showControls : Bool
  lastClickTime : ℕ
deriving DecidableEq

/-- The mutable state of `Canvas` (the fields that the engine reads or
writes; purely visual scratch data such as `buffer_image` and the
degree overlay text are omitted).  `selectedText` is modelled as a path
(tile key, index) into `textItems`, standing for the Python object
reference. -/
structure St where
  width : ℚ
  height : ℚ
  tileSize : ℤ
  tiles : List (TileKey × CanvasTile)
  lastPoint : Option (ℚ × ℚ)
  startPoint : Option (ℚ × ℚ)
  drawing : Bool
  brushSize : ℚ
  brushColor : String
  tool : Tool
  opacity : ℚ
  zoom : ℚ
  minZoom : ℚ
  maxZoom : ℚ
  panStart : Option (ℚ × ℚ)
  offset : ℚ × ℚ
  textItems : List (TileKey × List TextItem)
  selectedText : Option (TileKey × ℕ)
  rotating : Bool
  scaling : Bool
  rotationStart : Option ℝ
  initialRotation : Option ℚ
  scaleStart : Option (ℚ × ℚ)
  scaleOrigin : Option (ℚ × ℚ)
  startScale : Option ℚ
  startDist : Option ℝ
  maxTilesInMemory : ℕ
  tileAccessTimes : List (TileKey × ℕ)
  clock : ℕ
  cleanupCounter : ℕ
  cleanupThreshold : ℕ
  baseTileLimit : ℕ

/-- `Canvas.init_canvas` for a widget of the given size. -/
def init_canvas (w h : ℚ) : St :=
  { width := w
    height := h
    tileSize := 256
    tiles := []
    lastPoint := none
    startPoint := none
    drawing := false
    brushSize := 3
    brushColor := "#000000"
    tool := Tool.pen
    opacity := 1
    zoom := 1
    minZoom := 1/20
    maxZoom := 10
    panStart := none
    offset := (0, 0)
    textItems := []
    selectedText := none
    rotating := false
    scaling := false
    rotationStart := none
    initialRotation := none
    scaleStart := none
    scaleOrigin := none
    startScale := none
    startDist := none
    maxTilesInMemory := 500
    tileAccessTimes := []
    clock := 0
    cleanupCounter := 0
    cleanupThreshold := 25
    baseTileLimit := 500 }

/-- `Canvas.map_to_image`: screen position to world position. -/
def map_to_image (s : St) (p : ℚ × ℚ) : ℚ × ℚ :=
  (p.1 / s.zoom - s.offset.1, p.2 / s.zoom - s.offset.2)

/-- Inclusive integer range `[a, b]` as a list. -/
def intRange (a b : ℤ) : List ℤ :=
  (List.range (b + 1 - a).toNat).map (fun i => a + (i : ℤ))

/-- The rectangle of tile keys `[tx0, tx1] × [ty0, ty1]`, outer loop on
`tx`, matching the comprehension and loop order of the source. -/
def keyRect (tx0 tx1 ty0 ty1 : ℤ) : List TileKey :=
  (intRange tx0 tx1).flatMap (fun tx => (intRange ty0 ty1).map (fun ty => (tx, ty)))

/-- `Canvas.get_visible_tiles`: the tile keys covering the on-screen
world rectangle, padded by one tile on every side.  Python `int(x // t)`
on nonnegative `t` is the floor. -/
def get_visible_tiles (s : St) : List TileKey :=
  let left : ℚ := -s.offset.1
  let top : ℚ := -s.offset.2
  let w : ℚ := s.width / s.zoom
  let h : ℚ := s.height / s.zoom
  let minTx : ℤ := ⌊left / (s.tileSize : ℚ)⌋ - 1
  let maxTx : ℤ := ⌊(left + w) / (s.tileSize : ℚ)⌋ + 1
  let minTy : ℤ := ⌊top / (s.tileSize : ℚ)⌋ - 1
  let maxTy : ℤ := ⌊(top + h) / (s.tileSize : ℚ)⌋ + 1
  keyRect minTx maxTx minTy maxTy

/-- `Canvas.point_to_tile`. -/
def point_to_tile (s : St) (p : ℚ × ℚ) : TileKey × (ℚ × ℚ) :=
  let tx : ℤ := ⌊p.1 / (s.tileSize : ℚ)⌋
  let ty : ℤ := ⌊p.2 / (s.tileSize : ℚ)⌋
  ((tx, ty), (p.1 - ((tx * s.tileSize : ℤ) : ℚ), p.2 - ((ty * s.tileSize : ℤ) : ℚ)))

/-- `Canvas.get_max_tiles_for_zoom`.  `int(500 * 0.3)` etc. evaluate to
`150`, `300`, `750` in Python floats, exactly as the rational floors do. -/
def get_max_tiles_for_zoom (s : St) : ℕ :=
  if s.zoom < 1/10 then (⌊(s.baseTileLimit : ℚ) * (3/10)⌋).toNat
  else if s.zoom < 1/2 then (⌊(s.baseTileLimit : ℚ) * (6/10)⌋).toNat
  else if s.zoom > 5 then (⌊(s.baseTileLimit : ℚ) * (15/10)⌋).toNat
  else s.baseTileLimit

/-- Stable insertion into a list sorted ascending by timestamp. -/
def insertByTime (p : TileKey × ℕ) : List (TileKey × ℕ) → List (TileKey × ℕ)
  | [] => [p]
  | q :: r => if q.2 ≤ p.2 then q :: insertByTime p r else p :: q :: r

/-- Python `sorted(d.items(), key=lambda x: x[1])`: stable sort by
timestamp (insertion sort, which agrees with any stable sort). -/
def sortByTime (l : List (TileKey × ℕ)) : List (TileKey × ℕ) :=
  l.foldr insertByTime []

/-- The `for (tx, ty), _ in sorted_tiles:` loop body of
`cleanup_unused_tiles`: `break` once at or under capacity, skip visible
keys, otherwise pop the key from both mappings. -/
def cleanupLoop (cap : ℕ) (vis : List TileKey) : List (TileKey × ℕ) → St → St
  | [], a => a
  | e :: rest, a =>
    if a.tiles.length ≤ cap then a
    else if memKey vis e.1 then cleanupLoop cap vis rest a
    else cleanupLoop cap vis rest
      { a with tiles := eraseKey a.tiles e.1
               tileAccessTimes := eraseKey a.tileAccessTimes e.1 }

/-- `Canvas.cleanup_unused_tiles`. -/
def cleanup_unused_tiles (s : St) : St :=
  let cap := get_max_tiles_for_zoom s
  if s.tiles.length ≤ cap then s
  else cleanupLoop cap (get_visible_tiles s) (sortByTime s.tileAccessTimes) s

/-- `Canvas.get_tile`: record the access time, and if the key is new,
bump the creation counter, run a cleanup pass when it reaches the
threshold (then reset it), and insert a fresh blank tile. -/
def get_tile (s : St) (k : TileKey) : CanvasTile × St :=
  let s1 := { s with tileAccessTimes := upsert s.tileAccessTimes k s.clock
                     clock := s.clock + 1 }
  match alookup s1.tiles k with
  | some t => (t, s1)
  | none =>
    let s2 := { s1 with cleanupCounter := s1.cleanupCounter + 1 }
    let s3 := if s2.cleanupThreshold ≤ s2.cleanupCounter
              then { cleanup_unused_tiles s2 with cleanupCounter := 0 }
              else s2
    let t := blankTile s3.tileSize
    (t, { s3 with tiles := upsert s3.tiles k t })

/-- The painter work done on one tile inside `draw_line_between_points`:
pen/brush record a normally composited segment with zoom-divided width,
the eraser records a `Clear`-composited segment with doubled width, any
other tool paints nothing; the dirty flag is set unconditionally. -/
def drawSegmentOnTile (s : St) (t : CanvasTile) (a b : ℚ × ℚ) : CanvasTile :=
  let t1 :=
    if s.tool = Tool.pen ∨ s.tool = Tool.brush then
      { t with ops := t.ops ++ [{ p1 := a, p2 := b, width := s.brushSize / s.zoom,
                                  opacity := s.opacity, color := s.brushColor,
                                  eraseMode := false }] }
    else if s.tool = Tool.eraser then
      { t with ops := t.ops ++ [{ p1 := a, p2 := b, width := s.brushSize * 2 / s.zoom,
                                  opacity := 1, color := "#000000",
                                  eraseMode := true }] }
    else t
  { t1 with dirty := true }

/-- `Canvas.draw_line_between_points`: visit every tile of the segment
bounding box expanded by one tile in each direction; on each, fetch the
tile through `get_tile`, draw in tile-local coordinates and set dirty. -/
def draw_line_between_points (s : St) (pstart pend : ℚ × ℚ) : St :=
  let stK := (point_to_tile s pstart).1
  let enK := (point_to_tile s pend).1
  let minTx := min stK.1 enK.1 - 1
  let maxTx := max stK.1 enK.1 + 1
  let minTy := min stK.2 enK.2 - 1
  let maxTy := max stK.2 enK.2 + 1
  (keyRect minTx maxTx minTy maxTy).foldl
    (fun a k =>
      let r := get_tile a k
      let ts : ℚ × ℚ := (pstart.1 - ((k.1 * a.tileSize - 1 : ℤ) : ℚ),
                         pstart.2 - ((k.2 * a.tileSize - 1 : ℤ) : ℚ))
      let te : ℚ × ℚ := (pend.1 - ((k.1 * a.tileSize - 1 : ℤ) : ℚ),
                         pend.2 - ((k.2 * a.tileSize - 1 : ℤ) : ℚ))
      { r.2 with tiles := upsert r.2.tiles k (drawSegmentOnTile r.2 r.1 ts te) }) s

/-- `Canvas.clear_canvas`: `self.tiles.clear()` and a repaint request.
Note that `tile_access_times` is left untouched by the source. -/
def clear_canvas (s : St) : St :=
  { s with tiles := [] }

/-- The composite image `save_image` builds: its pixel dimensions and
the tiles placed into it at their pixel offsets. -/
structure SavedImage where
  imgWidth : ℤ
  imgHeight : ℤ
  placements : List (ℤ × ℤ × CanvasTile)
deriving DecidableEq

/-- Minimum of a list of integers (Python `min`), `0` on `[]` which the
caller never passes. -/
def minInt : List ℤ → ℤ
  | [] => 0
  | x :: r => r.foldl min x

/-- Maximum of a list of integers (Python `max`). -/
def maxInt : List ℤ → ℤ
  | [] => 0
  | x :: r => r.foldl max x

/-- `Canvas.save_image`: fail (`False`, modelled `none`) when no tiles
exist; otherwise composite every stored tile inside the bounding tile
rectangle into one image (the white backdrop fill is implicit in the
composite model).  The actual file encoding performed by `QImage.save`
is external; the state is threaded through explicitly to record that
the method never writes any canvas field. -/
def save_image (s : St) : Option SavedImage × St :=
  if s.tiles.isEmpty then (none, s)
  else
    let minTx := minInt (s.tiles.map (fun p => p.1.1))
    let maxTx := maxInt (s.tiles.map (fun p => p.1.1))
    let minTy := minInt (s.tiles.map (fun p => p.1.2))
    let maxTy := maxInt (s.tiles.map (fun p => p.1.2))
    let w := (maxTx - minTx + 1) * s.tileSize
    let h := (maxTy - minTy + 1) * s.tileSize
    let pls := (keyRect minTx maxTx minTy maxTy).filterMap
      (fun k => (alookup s.tiles k).map
        (fun t => ((k.1 - minTx) * s.tileSize, (k.2 - minTy) * s.tileSize, t)))
    (some { imgWidth := w, imgHeight := h, placements := pls }, s)

/-- Replace the element at an index, identity when out of range. -/
def modifyAt {α : Type} (f : α → α) : ℕ → List α → List α
  | _, [] => []
  | 0, x :: r => f x :: r
  | n + 1, x :: r => x :: modifyAt f n r

/-- Mutation through the `selected_text` object reference: rewrite the
item at the given path inside `text_items`. -/
def setItem (s : St) (path : TileKey × ℕ) (f : TextItem → TextItem) : St :=
  { s with textItems :=
      s.textItems.map (fun p => if p.1 = path.1 then (p.1, modifyAt f path.2 p.2) else p) }

/-- Dereference the `selected_text` style path. -/
def getItem (s : St) (path : TileKey × ℕ) : Option TextItem :=
  (alookup s.textItems path.1).bind (fun l => l.get? path.2)

/-- `Canvas.wheelEvent` with Ctrl held: multiply the zoom by `1.2`
(or its inverse for a downward tick), clamp to `[min_zoom, max_zoom]`,
and when the zoom actually changed, shift the pan offset so that the
world point under the cursor stays put. -/
def wheelEvent (s : St) (mousePos : ℚ × ℚ) (angleDeltaY : ℤ) (ctrl : Bool) : St :=
  if ctrl then
    let s0 := match s.selectedText with
              | some path => setItem s path (fun it => { it with showControls := false })
              | none => s
    let zf : ℚ := if angleDeltaY < 0 then 5/6 else 6/5
    let oldZoom := s0.zoom
    let z := max s0.minZoom (min s0.maxZoom (oldZoom * zf))
    let s1 := { s0 with zoom := z }
    if oldZoom ≠ z then
      { s1 with offset := (mousePos.1 / z - mousePos.1 / oldZoom + s1.offset.1,
                           mousePos.2 / z - mousePos.2 / oldZoom + s1.offset.2) }
    else s1
  else s

/-- The tile-store effect of `Canvas.paintEvent`: the render pass fetches
every visible tile through `get_tile` (creating missing ones); all its
other work only reads state. -/
def paintEvent (s : St) : St :=
  (get_visible_tiles s).foldl (fun a k => (get_tile a k).2) s

/-- `Canvas.mouseMoveEvent`: a middle-button move pans; a move while
`drawing` with a freehand tool draws a segment from the last point.
There is no handling of text-item drag, rotation or scaling here. -/
def mouseMoveEvent (s : St) (epos : ℚ × ℚ) (btn : MButton) : St :=
  let pos := map_to_image s epos
  let s1 := if btn = MButton.middle ∧ s.panStart.isSome = true then
              { s with offset := (s.offset.1 + (epos.1 - (s.panStart.getD (0, 0)).1) / s.zoom,
                                  s.offset.2 + (epos.2 - (s.panStart.getD (0, 0)).2) / s.zoom)
                       panStart := some epos }
            else s
  if s1.drawing = true ∧ s1.lastPoint.isSome = true then
    let lp := s1.lastPoint.getD (0, 0)
    let s2 := if s1.tool = Tool.pen ∨ s1.tool = Tool.brush ∨ s1.tool = Tool.eraser then
                draw_line_between_points s1 lp pos
              else s1
    { s2 with lastPoint := some pos }
  else s1

/-- `Canvas.add_text`: build the item (selected, scale `1`, rotation
`0`), append it to the bucket of the tile containing its anchor, and
make it the selected item. -/
def add_text (s : St) (txt : String) (pos : ℚ × ℚ) (fw fh : ℚ) (color : String) : St :=
  let it : TextItem :=
    { text := txt, pos := pos, fontW := fw, fontH := fh, color := color,
      scale := 1, rotation := 0, selected := true, dragging := false,
      dragStart := none, originalPos := none, showControls := false,
      lastClickTime := 0 }
  let key : TileKey := (⌊pos.1 / (s.tileSize : ℚ)⌋, ⌊pos.2 / (s.tileSize : ℚ)⌋)
  let cur := (alookup s.textItems key).getD []
  { s with textItems := upsert s.textItems key (cur ++ [it])
           selectedText := some (key, cur.length) }

/-- `PaintX.set_tool` as it acts on the canvas. -/
def set_tool (s : St) (t : Tool) : St :=
  { s with tool := t }

/-- `math.degrees(math.atan2 y x)` (via the complex argument, which has
the same branch cut and range as `atan2`). -/
noncomputable def atan2deg (y x : ℝ) : ℝ :=
  Complex.arg { re := x, im := y } * 180 / Real.pi

/-- Minimum of a list of reals, `0` on `[]` (never passed empty). -/
noncomputable def minR : List ℝ → ℝ
  | [] => 0
  | x :: r => r.foldl min x

/-- Maximum of a list of reals, `0` on `[]` (never passed empty). -/
noncomputable def maxR : List ℝ → ℝ
  | [] => 0
  | x :: r => r.foldl max x

/-- `Canvas.get_text_bounds`: corners of the scaled text rectangle
rotated by the item rotation (degrees, as `QTransform.rotate`) and
translated to the anchor, in source order. -/
noncomputable def get_text_bounds (it : TextItem) : List (ℝ × ℝ) :=
  let w : ℝ := (it.fontW : ℝ) * (it.scale : ℝ)
  let h : ℝ := (it.fontH : ℝ) * (it.scale : ℝ)
  let c : ℝ := Real.cos ((it.rotation : ℝ) * Real.pi / 180)
  let sn : ℝ := Real.sin ((it.rotation : ℝ) * Real.pi / 180)
  let tr : ℝ × ℝ → ℝ × ℝ := fun p =>
    ((it.pos.1 : ℝ) + c * p.1 - sn * p.2, (it.pos.2 : ℝ) + sn * p.1 + c * p.2)
  [tr (-w/2, -h/2), tr (w/2, -h/2), tr (w/2, h/2), tr (-w/2, h/2)]

/-- `Canvas.get_text_handles`: rotation handle above the bounds, scale
handle at the bottom-right bounds corner. -/
noncomputable def get_text_handles (s : St) (it : TextItem) : (ℝ × ℝ) × (ℝ × ℝ) :=
  let bounds := get_text_bounds it
  let xs := bounds.map Prod.fst
  let ys := bounds.map Prod.snd
  let rotationOffset : ℝ := 30 / (s.zoom : ℝ)
  (((it.pos.1 : ℝ), minR ys - rotationOffset), (maxR xs, maxR ys))

/-- `Canvas.is_near_point`: Manhattan distance under the zoom-scaled
threshold (default `15`). -/
noncomputable def is_near_point (s : St) (p q : ℝ × ℝ) : Prop :=
  |p.1 - q.1| + |p.2 - q.2| < 15 / (s.zoom : ℝ)

/-- Signed area test used to model polygon containment. -/
noncomputable def crossZ (a b p : ℝ × ℝ) : ℝ :=
  (b.1 - a.1) * (p.2 - a.2) - (b.2 - a.2) * (p.1 - a.1)

/-- `Canvas.is_point_in_text`, modelling `QPainterPath.contains` on the
closed convex quadrilateral of `get_text_bounds`. -/
noncomputable def is_point_in_text (p : ℚ × ℚ) (it : TextItem) : Prop :=
  match get_text_bounds it with
  | [a, b, c, d] =>
    let q : ℝ × ℝ := ((p.1 : ℝ), (p.2 : ℝ))
    (0 ≤ crossZ a b q ∧ 0 ≤ crossZ b c q ∧ 0 ≤ crossZ c d q ∧ 0 ≤ crossZ d a q) ∨
    (crossZ a b q ≤ 0 ∧ crossZ b c q ≤ 0 ∧ crossZ c d q ≤ 0 ∧ crossZ d a q ≤ 0)
  | _ => False

section
open Classical

/-- Index of the last element satisfying `p` (the `for item in
reversed(tile_texts)` scan returns the last hit of the bucket). -/
noncomputable def findLastIdxP {α : Type} (p : α → Prop) : List α → Option ℕ
  | [] => none
  | x :: r =>
    match findLastIdxP p r with
    | some i => some (i + 1)
    | none => if p x then some 0 else none

/-- The `for tile_texts in self.text_items.values(): for item in
reversed(tile_texts): ...` search of `mousePressEvent`. -/
noncomputable def findClicked (s : St) (pos : ℚ × ℚ) : Option (TileKey × ℕ) :=
  s.textItems.findSome? (fun pr =>
    (findLastIdxP (fun it => is_point_in_text pos it) pr.2).map (fun i => (pr.1, i)))

/-- `Canvas.mousePressEvent` for a left click.  `dlgText`/`dlgFont` are
what the text and font dialogs of the text-tool branch would return
(`none` = cancelled); the font is abstracted to the text extent it
produces.  Note the handle branch: with an item selected and the press
on neither handle, the item enters dragging mode with no containment
check; the press never writes the item anchor, rotation or scale. -/
noncomputable def mousePressEvent (s : St) (epos : ℚ × ℚ) (btn : MButton)
    (dlgText : Option String) (dlgFont : Option (ℚ × ℚ)) : St :=
  let pos := map_to_image s epos
  if btn = MButton.left then
    if s.tool = Tool.text ∨ s.tool = Tool.select then
      match s.selectedText with
      | some path =>
        match getItem s path with
        | none => s
        | some it =>
          let hs := get_text_handles s it
          let posR : ℝ × ℝ := ((pos.1 : ℝ), (pos.2 : ℝ))
          if is_near_point s posR hs.1 then
            { s with rotating := true
                     rotationStart := some (atan2deg ((pos.2 : ℝ) - (it.pos.2 : ℝ))
                                                    ((pos.1 : ℝ) - (it.pos.1 : ℝ)))
                     initialRotation := some it.rotation }
          else if is_near_point s posR hs.2 then
            { s with scaling := true
                     scaleStart := some pos
                     scaleOrigin := some it.pos
                     startScale := some it.scale
                     startDist := some (Real.sqrt (((pos.1 - it.pos.1 : ℚ) : ℝ) ^ 2
                                                 + ((pos.2 - it.pos.2 : ℚ) : ℝ) ^ 2)) }
          else
            setItem s path (fun j =>
              { j with dragging := true, dragStart := some pos, originalPos := some j.pos })
      | none =>
        match findClicked s pos with
        | some path =>
          { setItem s path (fun j => { j with selected := true, showControls := true })
            with selectedText := some path }
        | none =>
          if s.tool = Tool.text then
            match dlgText, dlgFont with
            | some txt, some fm =>
              if txt ≠ "" then add_text s txt pos fm.1 fm.2 s.brushColor else s
            | _, _ => s
          else s
    else
      let s0 := match s.selectedText with
                | some path =>
                  { setItem s path (fun j => { j with selected := false, showControls := false })
                    with selectedText := none }
                | none => s
      { s0 with drawing := true, lastPoint := some pos, startPoint := some pos }
  else s

end

/-- Anchor of the currently selected text item. -/
noncomputable def itemAnchor (s : St) : Option (ℚ × ℚ) :=
  (s.selectedText.bind (fun p => getItem s p)).map TextItem.pos

/-- Rotation of the currently selected text item. -/
noncomputable def itemRotation (s : St) : Option ℚ :=
  (s.selectedText.bind (fun p => getItem s p)).map TextItem.rotation

/-- Scale of the currently selected text item. -/
noncomputable def itemScale (s : St) : Option ℚ :=
  (s.selectedText.bind (fun p => getItem s p)).map TextItem.scale

/-- Dirty flag of the tile at a key (`false` when absent). -/
def dirtyAt (s : St) (k : TileKey) : Bool :=
  ((alookup s.tiles k).map CanvasTile.dirty).getD false

/-- Key sets of the tile mapping and the access-time mapping agree. -/
def KeysEq (s : St) : Prop :=
  ∀ k, hasKey s.tiles k = hasKey s.tileAccessTimes k

/-- The inclusive tile rectangle covering the on-screen viewport in
world space, expanded by `pad` tiles on every side (the culling rule in
the words of the spec, with the padding a parameter). -/
def coveringTilesPadded (s : St) (pad : ℤ) : List TileKey :=
  let left : ℚ := -s.offset.1
  let top : ℚ := -s.offset.2
  let right : ℚ := left + s.width / s.zoom
  let bottom : ℚ := top + s.height / s.zoom
  keyRect (⌊left / (s.tileSize : ℚ)⌋ - pad) (⌊right / (s.tileSize : ℚ)⌋ + pad)
          (⌊top / (s.tileSize : ℚ)⌋ - pad) (⌊bottom / (s.tileSize : ℚ)⌋ + pad)

/-- Modelled from the spec: the zoom-tier padding margin the spec
claims for the visible-tile computation (0 tiles below `0.1`, 1 tile
below `0.5`, 2 tiles otherwise). -/
def specPad (z : ℚ) : ℤ :=
  if z < 1/10 then 0 else if z < 1/2 then 1 else 2

/-- Modelled from the spec: the visible-tile computation as the spec
describes it, with zoom-dependent padding. -/
def specVisibleTiles (s : St) : List TileKey :=
  coveringTilesPadded s (specPad s.zoom)

attribute [local semireducible] Rat.mul Rat.add Rat.sub Rat.inv Rat.ofScientific

/-! ## Concrete states used by counterexamples and witnesses -/

/-- A state reached by one `get_tile` call on a fresh canvas: one tile
and one access record. -/
def c3State : St := (get_tile (init_canvas 800 600) (0, 0)).2

/-- A fresh canvas with a 256 by 256 widget at zoom 1. -/
def c4State : St := init_canvas 256 256

/-- An over-capacity store (base capacity 2, three stored tiles, none
of them visible, with recorded access times 0 < 1 < 2). -/
def c5State : St :=
  { init_canvas 0 0 with
      baseTileLimit := 2
      tiles := [((0, 5), blankTile 256), ((1, 5), blankTile 256), ((2, 5), blankTile 256)]
      tileAccessTimes := [((0, 5), 0), ((1, 5), 1), ((2, 5), 2)] }

/-- A canvas in the low-zoom tier (zoom 0.06 < 0.1). -/
def c6LowState : St := { init_canvas 0 0 with zoom := 3/50 }

/-- A canvas in the normal zoom tier (zoom 1). -/
def c6MidState : St := init_canvas 0 0

/-- A store of 151 tiles at zoom 0.05 (capacity 150) whose
access-timestamp mapping is empty.  The two mappings can genuinely get
out of sync: `clear_canvas` leaves all timestamps behind, and the
cleanup pass fired inside `get_tile` can pop the timestamp of the very
key being created before its tile is inserted. -/
def c1State : St :=
  { init_canvas 0 0 with
      zoom := 1/20
      tiles := (List.range 151).map (fun i => (((i : ℤ), (5 : ℤ)), blankTile 256))
      tileAccessTimes := [] }

/-- The canvas of the C8 scenario: fresh 800 by 600 canvas, pen tool. -/
def c8State : St := init_canvas 800 600

/-- The C8 scenario result: a stroke segment from world (10,10) to
(300,10) on the fresh canvas. -/
def c8Result : St := draw_line_between_points c8State (10, 10) (300, 10)

/-- The C2 scenario base state: fresh canvas, a text item added at
world (100,100) (text extent 80 by 20), select tool active.  At zoom 1
with zero offset the screen and world coordinates coincide. -/
def c2Base : St :=
  set_tool (add_text (init_canvas 800 600) "A" (100, 100) 80 20 "#000000") Tool.select

/-- The text item stored by the C2 scenario setup. -/
def c2Item : TextItem :=
  { text := "A", pos := (100, 100), fontW := 80, fontH := 20, color := "#000000",
    scale := 1, rotation := 0, selected := true, dragging := false,
    dragStart := none, originalPos := none, showControls := false, lastClickTime := 0 }

/-- The C2 scenario after the pointer press at (100,100). -/
noncomputable def c2Press : St :=
  mousePressEvent c2Base (100, 100) MButton.left none none

/-- The C2 scenario after the pointer press at (100,100) and the
pointer move to (150,120). -/
noncomputable def c2Final : St :=
  mouseMoveEvent c2Press (150, 120) MButton.nobutton

/-- A fresh canvas: the store is empty and far under capacity. -/
def c1SmallState : St := init_canvas 800 600

/-- An over-capacity store (base capacity 2, zoom 1) with three
non-visible tiles whose access times are 0 < 1 < 2. -/
def c1EvictState : St :=
  { init_canvas 0 0 with
      baseTileLimit := 2
      tiles := [((0, 5), blankTile 256), ((1, 5), blankTile 256), ((2, 5), blankTile 256)]
      tileAccessTimes := [((0, 5), 0), ((1, 5), 1), ((2, 5), 2)] }

/-- A one-tile store with matching mappings, creation counter 0. -/
def c3EqState : St :=
  { init_canvas 800 600 with
      tiles := [((0, 0), blankTile 256)]
      tileAccessTimes := [((0, 0), 0)]
      clock := 1 }

/-- A near-threshold store: the counter is at 24, the next creation
fires a pass (here a trivial one: the store is far under capacity). -/
def c5NearState : St := { init_canvas 800 600 with cleanupCounter := 24 }

/-- Projections of `setItem` that the wheel/press proofs need: it only
rewrites `textItems`. -/
@[simp] theorem setItem_zoom (s : St) (path : TileKey × ℕ) (f : TextItem → TextItem) :
    (setItem s path f).zoom = s.zoom := rfl

@[simp] theorem setItem_minZoom (s : St) (path : TileKey × ℕ) (f : TextItem → TextItem) :
    (setItem s path f).minZoom = s.minZoom := rfl

@[simp] theorem setItem_maxZoom (s : St) (path : TileKey × ℕ) (f : TextItem → TextItem) :
    (setItem s path f).maxZoom = s.maxZoom := rfl

@[simp] theorem setItem_offset (s : St) (path : TileKey × ℕ) (f : TextItem → TextItem) :
    (setItem s path f).offset = s.offset := rfl

@[simp] theorem alookup_nil {α : Type} (k : TileKey) : alookup ([] : List (TileKey × α)) k = none := rfl

theorem alookup_cons {α : Type} (p : TileKey × α) (r : List (TileKey × α)) (k : TileKey) :
    alookup (p :: r) k = if p.1 = k then some p.2 else alookup r k := rfl

/-- `modifyAt` at the modified index. -/
theorem modifyAt_get_self {α : Type} (f : α → α) :
    ∀ (n : ℕ) (l : List α), (modifyAt f n l)[n]? = l[n]?.map f
  | _, [] => by simp [modifyAt]
  | 0, x :: r => by simp [modifyAt]
  | n + 1, x :: r => by
    simpa [modifyAt] using modifyAt_get_self f n r

/-- `alookup` after a value-only rewrite of the entries with one key. -/
theorem alookup_mapValue {α : Type} (key : TileKey) (g : α → α) (j : TileKey) :
    ∀ l : List (TileKey × α),
      alookup (l.map (fun p => if p.1 = key then (p.1, g p.2) else p)) j
        = if j = key then (alookup l j).map g else alookup l j := by
  intro l
  induction l with
  | nil => by_cases h : j = key <;> simp [h]
  | cons p r ih =>
    rw [List.map_cons, alookup_cons]
    by_cases hpk : p.1 = key
    · rw [if_pos hpk]
      dsimp only
      by_cases hpj : p.1 = j
      · have hjk : j = key := by rw [← hpj, hpk]
        simp [alookup_cons, hpj, hjk]
      · have hjk : ¬ j = key := fun h => hpj (by rw [hpk, ← h])
        simp [alookup_cons, hpj, hjk, ih]
    · rw [if_neg hpk]
      by_cases hpj : p.1 = j
      · have hjk : ¬ j = key := fun h => hpk (by rw [hpj, h])
        simp [alookup_cons, hpj, hjk]
      · by_cases hjk : j = key
        · subst hjk; simp [alookup_cons, hpk, hpj, ih]
        · simp [alookup_cons, hpj, hjk, ih]

/-- Reading the rewritten path after `setItem` applies the rewrite to
the stored item. -/
theorem getItem_setItem_self (s : St) (path : TileKey × ℕ) (f : TextItem → TextItem) :
    getItem (setItem s path f) path = (getItem s path).map f := by
  unfold getItem setItem
  dsimp only
  rw [alookup_mapValue path.1 (modifyAt f path.2) path.1]
  rw [if_pos rfl]
  cases h : alookup s.textItems path.1 with
  | none => rfl
  | some l => simp [modifyAt_get_self]

/-- Fields of the selected item read through a selection path. -/
theorem selectedItem_fields (r : St) (path : TileKey × ℕ) (it : TextItem)
    (hsel2 : r.selectedText = some path)
    (hti : getItem r path = some it) :
    itemAnchor r = some it.pos ∧ itemRotation r = some it.rotation
  ∧ itemScale r = some it.scale := by
  unfold itemAnchor itemRotation itemScale
  rw [hsel2]
  simp only [Option.some_bind]
  rw [hti]
  exact ⟨rfl, rfl, rfl⟩

/-- In the `text`/`select` branch with an item selected, a left press
only toggles gesture flags: the selected item keeps its anchor,
rotation and scale, and the drawing/pan machinery stays untouched,
whichever of the three gesture branches the hit test selects. -/
theorem mousePressEvent_select_preserves (s : St) (epos : ℚ × ℚ)
    (dlgText : Option String) (dlgFont : Option (ℚ × ℚ))
    (path : TileKey × ℕ) (it : TextItem)
    (htool : s.tool = Tool.text ∨ s.tool = Tool.select)
    (hsel : s.selectedText = some path)
    (hitem : getItem s path = some it) :
    (mousePressEvent s epos MButton.left dlgText dlgFont).selectedText = some path
  ∧ itemAnchor (mousePressEvent s epos MButton.left dlgText dlgFont) = some it.pos
  ∧ itemRotation (mousePressEvent s epos MButton.left dlgText dlgFont) = some it.rotation
  ∧ itemScale (mousePressEvent s epos MButton.left dlgText dlgFont) = some it.scale
  ∧ (mousePressEvent s epos MButton.left dlgText dlgFont).drawing = s.drawing
  ∧ (mousePressEvent s epos MButton.left dlgText dlgFont).panStart = s.panStart := by
  unfold mousePressEvent
  simp only [reduceIte]
  rw [if_pos htool, hsel]
  dsimp only
  rw [hitem]
  dsimp only
  split
  · refine ⟨rfl, ?_, ?_, ?_, rfl, rfl⟩
    · exact (selectedItem_fields _ path it (by rfl) (by exact hitem)).1
    · exact (selectedItem_fields _ path it (by rfl) (by exact hitem)).2.1
    · exact (selectedItem_fields _ path it (by rfl) (by exact hitem)).2.2
  · split
    · refine ⟨rfl, ?_, ?_, ?_, rfl, rfl⟩
      · exact (selectedItem_fields _ path it (by rfl) (by exact hitem)).1
      · exact (selectedItem_fields _ path it (by rfl) (by exact hitem)).2.1
      · exact (selectedItem_fields _ path it (by rfl) (by exact hitem)).2.2
    · have hti2 : getItem (setItem s path (fun j =>
          { j with dragging := true, dragStart := some (map_to_image s epos),
                   originalPos := some j.pos })) path
          = some { it with dragging := true, dragStart := some (map_to_image s epos),
                           originalPos := some it.pos } := by
        rw [getItem_setItem_self, hitem]; rfl
      have hsel2 : (setItem s path (fun j =>
          { j with dragging := true, dragStart := some (map_to_image s epos),
                   originalPos := some j.pos })).selectedText = some path := hsel
      obtain ⟨a, b, c⟩ := selectedItem_fields _ path _ hsel2 hti2
      exact ⟨hsel, a, b, c, rfl, rfl⟩

/-! ## Claim C2 -/

/-- C2: the drag scenario does not move the item.  After adding a text
item at (100,100), activating the select tool and pressing at (100,100)
then moving the pointer to (150,120), the item anchor is still
(100,100) - not (150,120) as the claim requires - because
`mouseMoveEvent` contains no translation (nor rotation or scaling)
handling for text items; rotation and scale are unchanged as claimed,
but for the same degenerate reason: nothing ever writes them. -/
theorem C2_drag_scenario :
    itemAnchor c2Final = some (100, 100)
  ∧ itemRotation c2Final = some 0
  ∧ itemScale c2Final = some 1
  ∧ itemAnchor c2Final ≠ some (150, 120) := by
  have hsel : c2Base.selectedText = some ((0, 0), 0) := rfl
  have hitem : getItem c2Base ((0, 0), 0) = some c2Item := rfl
  have htool : c2Base.tool = Tool.text ∨ c2Base.tool = Tool.select := Or.inr rfl
  obtain ⟨h1, h2, h3, h4, h5, h6⟩ :=
    mousePressEvent_select_preserves c2Base (100, 100) none none ((0, 0), 0) c2Item
      htool hsel hitem
  have hdraw : c2Press.drawing = false := by
    unfold c2Press
    rw [h5]
    rfl
  have hfinal : c2Final = c2Press := by
    unfold c2Final mouseMoveEvent
    simp [hdraw]
  rw [hfinal]
  unfold c2Press
  refine ⟨h2, h3, h4, ?_⟩
  rw [h2]
  intro hcontra
  have h100 : ((100 : ℚ), (100 : ℚ)) = ((150 : ℚ), (120 : ℚ)) := Option.some.inj hcontra
  exact absurd (congrArg Prod.fst h100) (by norm_num)

/-! ## Claim C3 -/

/-- C3, counterexample: `clear_canvas` empties the tile mapping but
leaves the access-timestamp record of the previously created tile in
place, so after `clear()` the two mappings do not have equal key sets:
key `(0,0)` has a timestamp but no tile. -/
theorem C3_counterexample :
    (clear_canvas c3State).tiles = []
  ∧ (clear_canvas c3State).tileAccessTimes ≠ []
  ∧ hasKey (clear_canvas c3State).tiles (0, 0) = false
  ∧ hasKey (clear_canvas c3State).tileAccessTimes (0, 0) = true := by
  decide

/-! ## Claim C4 -/

/-- C4, counterexample: at zoom 1 the spec asks for a 2-tile padding
margin, but the code pads by 1 tile; the visible-tile sets differ on a
fresh 256 by 256 canvas. -/
theorem C4_counterexample : get_visible_tiles c4State ≠ specVisibleTiles c4State := by
  decide

/-- C4, amended: for every viewport and zoom, the visible-tile
computation returns the inclusive tile rectangle covering the on-screen
viewport in world space expanded by a fixed padding margin of exactly
one tile, independent of the zoom level. -/
theorem C4_amended (s : St) : get_visible_tiles s = coveringTilesPadded s 1 := rfl

/-! ## Claim C5 -/

/-- C5, counterexample: a wheel zoom change performs no eviction pass.
On an over-capacity store whose tiles are all evictable, the wheel event
changes the zoom yet leaves tiles, access times and the creation counter
untouched, although an eviction pass run at that point would have
shrunk the store. -/
theorem C5_counterexample :
    (wheelEvent c5State (0, 0) 1 true).zoom ≠ c5State.zoom
  ∧ (wheelEvent c5State (0, 0) 1 true).tiles = c5State.tiles
  ∧ (wheelEvent c5State (0, 0) 1 true).tileAccessTimes = c5State.tileAccessTimes
  ∧ (wheelEvent c5State (0, 0) 1 true).cleanupCounter = c5State.cleanupCounter
  ∧ (cleanup_unused_tiles (wheelEvent c5State (0, 0) 1 true)).tiles.length
      < (wheelEvent c5State (0, 0) 1 true).tiles.length := by
  decide

/-! ## Claim C6 -/

/-- C6, counterexample: the per-tick zoom multiplier does not depend on
the zoom tier.  At zoom 0.06 (below 0.1, where the spec claims a
smaller step) and at zoom 1 the multiplier is the same, as the equal
cross products of the before/after zooms show. -/
theorem C6_counterexample :
    c6LowState.zoom < 1/10
  ∧ ¬(c6MidState.zoom < 1/10) ∧ ¬(c6MidState.zoom > 5)
  ∧ (wheelEvent c6LowState (0, 0) 1 true).zoom * c6MidState.zoom
      = (wheelEvent c6MidState (0, 0) 1 true).zoom * c6LowState.zoom := by
  decide

/-- C6, amended: each wheel tick multiplies the zoom factor by the
constant 1.2 (scroll up) or 1/1.2 (scroll down) and clamps the result
to `[min_zoom, max_zoom]`; the multiplier does not depend on the
current zoom tier. -/
theorem C6_amended (s : St) (mousePos : ℚ × ℚ) (dy : ℤ) :
    (wheelEvent s mousePos dy true).zoom
      = max s.minZoom (min s.maxZoom (s.zoom * (if dy < 0 then 5/6 else 6/5))) := by
  unfold wheelEvent
  cases h : s.selectedText <;>
    simp only [reduceIte] <;> split <;> split <;> simp

/-! ## Claim C7 -/

/-- C7: a wheel zoom change preserves the world point under the cursor:
`map_to_image` of the event position is the same before and after the
event, for any anchor point, wheel direction and zoom transition (the
offset adjustment cancels exactly over `ℚ`). -/
theorem C7_anchor (s : St) (epos : ℚ × ℚ) (dy : ℤ) (ctrl : Bool)
    (_hz : s.zoom ≠ 0) :
    map_to_image (wheelEvent s epos dy ctrl) epos = map_to_image s epos := by
  cases ctrl
  · rfl
  · unfold wheelEvent
    cases h : s.selectedText <;>
      simp only [reduceIte] <;> split <;> split <;>
        (try rename_i hc) <;>
        unfold map_to_image <;>
        simp only [setItem_zoom, setItem_offset, not_not] at hc ⊢ <;>
        (first
          | rfl
          | (rw [← hc])
          | (refine Prod.ext ?_ ?_ <;> dsimp only <;> ring))

/-- Witness for C7 at a concrete state. -/
theorem C7_anchor_witness :
    (init_canvas 800 600).zoom ≠ 0
  ∧ map_to_image (wheelEvent (init_canvas 800 600) (3, 4) 1 true) (3, 4)
      = map_to_image (init_canvas 800 600) (3, 4) :=
  ⟨by decide, C7_anchor (init_canvas 800 600) (3, 4) 1 true (by decide)⟩

/-! ## Claim C8 -/

/-- C8, counterexample: the stroke from (10,10) to (300,10) marks tiles
(0,1) and (1,1) dirty as well, because the rasteriser loops over the
whole one-tile-expanded bounding box and sets the dirty flag on every
visited tile; the claim says those tiles stay untouched. -/
theorem C8_counterexample :
    dirtyAt c8Result (0, 1) = true ∧ dirtyAt c8Result (1, 1) = true := by
  decide

/-- C8, amended: the stroke from (10,10) to (300,10) on an empty store
with tile size 256 creates and marks dirty exactly the tiles of the
one-tile-expanded bounding box of the endpoint tiles, tx in [-1,2] and
ty in [-1,1] - including (0,0) and (1,0), but also (0,1) and (1,1);
every one of those tiles also receives the drawn segment in its local
coordinates. -/
theorem C8_amended :
    c8Result.tiles.map Prod.fst = keyRect (-1) 2 (-1) 1
  ∧ c8Result.tiles.all (fun p => p.2.dirty) = true
  ∧ c8Result.tiles.all (fun p => !p.2.ops.isEmpty) = true
  ∧ dirtyAt c8Result (0, 0) = true ∧ dirtyAt c8Result (1, 0) = true := by
  decide

/-! ## Claim C9 -/

/-- C9: `save_image` never writes any canvas state (the returned state
is the input state, on both the no-tiles failure path and the composite
path), and with no tiles stored it returns failure. -/
theorem C9_save (s : St) :
    (save_image s).2 = s ∧ (s.tiles = [] → (save_image s).1 = none) := by
  constructor
  · unfold save_image; split <;> rfl
  · intro h; unfold save_image; rw [h]; rfl

/-- Witness for C9 on the fresh canvas, whose store is empty. -/
theorem C9_save_witness :
    (save_image (init_canvas 800 600)).2 = init_canvas 800 600
  ∧ (save_image (init_canvas 800 600)).1 = none :=
  ⟨(C9_save (init_canvas 800 600)).1, (C9_save (init_canvas 800 600)).2 rfl⟩

/-! ## Claim C1, counterexample -/

/-- C1, counterexample: an eviction pass can leave the store above
capacity with non-visible tiles still present.  On a store of 151 tiles
(capacity 150 at zoom 0.05) whose access-timestamp mapping is empty,
the pass iterates over the timestamp mapping only, removes nothing, and
leaves the non-visible tile (0,5) in a store of 151 > 150 tiles. -/
theorem C1_counterexample :
    (cleanup_unused_tiles c1State).tiles.length = 151
  ∧ get_max_tiles_for_zoom c1State = 150
  ∧ hasKey (cleanup_unused_tiles c1State).tiles (0, 5) = true
  ∧ memKey (get_visible_tiles c1State) (0, 5) = false := by
  decide

/-! ## Association-list and sort lemmas for the eviction pass -/

theorem alookup_eraseKey {α : Type} (k j : TileKey) :
    ∀ l : List (TileKey × α),
      alookup (eraseKey l k) j = if j = k then none else alookup l j := by
  intro l
  induction l with
  | nil => by_cases h : j = k <;> simp [eraseKey, h]
  | cons p r ih =>
    by_cases hpk : p.1 = k
    · have : eraseKey (p :: r) k = eraseKey r k := by
        simp [eraseKey, hpk]
      rw [this, ih, alookup_cons]
      by_cases hjk : j = k
      · simp [hjk]
      · have hpj : ¬ p.1 = j := fun h => hjk (by rw [← h, hpk])
        simp [hjk, hpj]
    · have : eraseKey (p :: r) k = p :: eraseKey r k := by
        simp [eraseKey, hpk]
      rw [this, alookup_cons, alookup_cons, ih]
      by_cases hpj : p.1 = j
      · have hjk : ¬ j = k := fun h => hpk (by rw [hpj, h])
        simp [hpj, hjk]
      · simp [hpj]

theorem hasKey_eraseKey {α : Type} (k j : TileKey) (l : List (TileKey × α)) :
    hasKey (eraseKey l k) j = if j = k then false else hasKey l j := by
  unfold hasKey
  rw [alookup_eraseKey]
  by_cases h : j = k <;> simp [h]

theorem eraseKey_length_le {α : Type} (k : TileKey) (l : List (TileKey × α)) :
    (eraseKey l k).length ≤ l.length :=
  List.length_filter_le _ l

theorem eraseKey_sublist {α : Type} (k : TileKey) (l : List (TileKey × α)) :
    (eraseKey l k).Sublist l :=
  List.filter_sublist l

theorem nodupKeys_eraseKey {α : Type} (k : TileKey) (l : List (TileKey × α))
    (h : NodupKeys l) : NodupKeys (eraseKey l k) :=
  ((eraseKey_sublist k l).map Prod.fst).nodup h

theorem eraseKey_length_ge {α : Type} (k : TileKey) :
    ∀ l : List (TileKey × α), NodupKeys l → l.length - 1 ≤ (eraseKey l k).length := by
  intro l
  induction l with
  | nil => simp [eraseKey]
  | cons p r ih =>
    intro hnd
    have hndr : NodupKeys r := by
      unfold NodupKeys at hnd ⊢
      exact (List.nodup_cons.mp hnd).2
    by_cases hpk : p.1 = k
    · have he : eraseKey (p :: r) k = eraseKey r k := by simp [eraseKey, hpk]
      have hr : eraseKey r k = r := by
        have hknotin : ∀ q ∈ r, q.1 ≠ k := by
          intro q hq hqk
          have := (List.nodup_cons.mp hnd).1
          exact this (by
            rw [hpk, ← hqk]
            exact List.mem_map_of_mem Prod.fst hq)
        unfold eraseKey
        apply List.filter_eq_self.mpr
        intro q hq
        simpa using hknotin q hq
      rw [he, hr]
      simp
    · have he : eraseKey (p :: r) k = p :: eraseKey r k := by simp [eraseKey, hpk]
      rw [he]
      have := ih hndr
      simp only [List.length_cons]
      omega

/-- Stable insertion keeps the multiset of entries. -/
theorem insertByTime_perm (p : TileKey × ℕ) :
    ∀ l : List (TileKey × ℕ), (insertByTime p l).Perm (p :: l) := by
  intro l
  induction l with
  | nil => simp [insertByTime]
  | cons q r ih =>
    unfold insertByTime
    split
    · exact (ih.cons q).trans (List.Perm.swap p q r)
    · exact List.Perm.refl _

theorem mem_insertByTime (p x : TileKey × ℕ) (l : List (TileKey × ℕ)) :
    x ∈ insertByTime p l ↔ x = p ∨ x ∈ l := by
  rw [(insertByTime_perm p l).mem_iff]
  simp

/-- Stable insertion preserves sortedness by timestamp. -/
theorem insertByTime_sorted (p : TileKey × ℕ) :
    ∀ l : List (TileKey × ℕ),
      l.Pairwise (fun a b => a.2 ≤ b.2) →
      (insertByTime p l).Pairwise (fun a b => a.2 ≤ b.2) := by
  intro l
  induction l with
  | nil => intro _; simp [insertByTime]
  | cons q r ih =>
    intro hs
    have hq := (List.pairwise_cons.mp hs).1
    have hr := (List.pairwise_cons.mp hs).2
    unfold insertByTime
    split
    · rename_i hqp
      refine List.pairwise_cons.mpr ⟨?_, ih hr⟩
      intro x hx
      rcases (mem_insertByTime p x r).mp hx with hxp | hxr
      · rw [hxp]; exact hqp
      · exact hq x hxr
    · rename_i hqp
      have hpq : p.2 ≤ q.2 := le_of_not_le hqp
      refine List.pairwise_cons.mpr ⟨?_, hs⟩
      intro x hx
      rcases List.mem_cons.mp hx with hxq | hxr
      · rw [hxq]; exact hpq
      · exact le_trans hpq (hq x hxr)

theorem sortByTime_perm (l : List (TileKey × ℕ)) : (sortByTime l).Perm l := by
  induction l with
  | nil => simp [sortByTime]
  | cons p r ih =>
    unfold sortByTime at ih ⊢
    exact (insertByTime_perm p _).trans (ih.cons p)

theorem sortByTime_sorted (l : List (TileKey × ℕ)) :
    (sortByTime l).Pairwise (fun a b => a.2 ≤ b.2) := by
  induction l with
  | nil => simp [sortByTime]
  | cons p r ih =>
    unfold sortByTime at ih ⊢
    exact insertByTime_sorted p _ ih

theorem sortByTime_nodupKeys (l : List (TileKey × ℕ)) (h : NodupKeys l) :
    NodupKeys (sortByTime l) := by
  unfold NodupKeys at h ⊢
  exact (((sortByTime_perm l).map Prod.fst).nodup_iff).mpr h

/-! ## Lemmas about one eviction pass -/

/-- The eviction loop only rewrites the two store mappings. -/
theorem cleanupLoop_frame (cap : ℕ) (vis : List TileKey) :
    ∀ (l : List (TileKey × ℕ)) (a : St), ∃ t u,
      cleanupLoop cap vis l a = { a with tiles := t, tileAccessTimes := u } := by
  intro l
  induction l with
  | nil =>
    intro a
    exact ⟨a.tiles, a.tileAccessTimes, rfl⟩
  | cons e rest ih =>
    intro a
    simp only [cleanupLoop]
    split
    · exact ⟨a.tiles, a.tileAccessTimes, rfl⟩
    · split
      · exact ih a
      · obtain ⟨t, u, h⟩ := ih { a with tiles := eraseKey a.tiles e.1,
                                        tileAccessTimes := eraseKey a.tileAccessTimes e.1 }
        exact ⟨t, u, h⟩

/-- The eviction loop never touches a visible key, in either mapping. -/
theorem cleanupLoop_visible_keep (cap : ℕ) (vis : List TileKey) (k : TileKey)
    (hk : memKey vis k = true) :
    ∀ (l : List (TileKey × ℕ)) (a : St),
      alookup (cleanupLoop cap vis l a).tiles k = alookup a.tiles k
    ∧ alookup (cleanupLoop cap vis l a).tileAccessTimes k = alookup a.tileAccessTimes k := by
  intro l
  induction l with
  | nil => intro a; exact ⟨rfl, rfl⟩
  | cons e rest ih =>
    intro a
    simp only [cleanupLoop]
    split
    · exact ⟨rfl, rfl⟩
    · split
      · exact ih a
      · rename_i hbig hnotvis
        obtain ⟨h1, h2⟩ := ih { a with tiles := eraseKey a.tiles e.1,
                                       tileAccessTimes := eraseKey a.tileAccessTimes e.1 }
        have hke : ¬ k = e.1 := by
          intro hke
          rw [hke] at hk
          rw [hk] at hnotvis
          exact hnotvis rfl
        constructor
        · rw [h1]
          show alookup (eraseKey a.tiles e.1) k = alookup a.tiles k
          rw [alookup_eraseKey, if_neg hke]
        · rw [h2]
          show alookup (eraseKey a.tileAccessTimes e.1) k = alookup a.tileAccessTimes k
          rw [alookup_eraseKey, if_neg hke]

/-- The eviction loop only removes entries: any surviving tile entry
was already present with the same value. -/
theorem cleanupLoop_sub (cap : ℕ) (vis : List TileKey) (k : TileKey) (v : CanvasTile) :
    ∀ (l : List (TileKey × ℕ)) (a : St),
      alookup (cleanupLoop cap vis l a).tiles k = some v →
      alookup a.tiles k = some v := by
  intro l
  induction l with
  | nil => intro a h; exact h
  | cons e rest ih =>
    intro a
    simp only [cleanupLoop]
    split
    · exact fun h => h
    · split
      · exact ih a
      · intro h
        have h2 := ih _ h
        show alookup a.tiles k = some v
        have h3 : alookup (eraseKey a.tiles e.1) k = some v := h2
        rw [alookup_eraseKey] at h3
        by_cases hke : k = e.1
        · rw [if_pos hke] at h3; exact absurd h3 (by simp)
        · rw [if_neg hke] at h3; exact h3

/-- The eviction loop preserves distinctness of tile keys. -/
theorem cleanupLoop_nodup (cap : ℕ) (vis : List TileKey) :
    ∀ (l : List (TileKey × ℕ)) (a : St),
      NodupKeys a.tiles → NodupKeys (cleanupLoop cap vis l a).tiles := by
  intro l
  induction l with
  | nil => intro a h; exact h
  | cons e rest ih =>
    intro a h
    simp only [cleanupLoop]
    split
    · exact h
    · split
      · exact ih a h
      · exact ih _ (nodupKeys_eraseKey e.1 a.tiles h)

/-- The loop stops as soon as the store is at or under capacity: it
never drops the tile count below `min (initial count) cap`. -/
theorem cleanupLoop_length_ge (cap : ℕ) (vis : List TileKey) :
    ∀ (l : List (TileKey × ℕ)) (a : St),
      NodupKeys a.tiles →
      min a.tiles.length cap ≤ (cleanupLoop cap vis l a).tiles.length := by
  intro l
  induction l with
  | nil => intro a _; exact min_le_left _ _
  | cons e rest ih =>
    intro a hnd
    simp only [cleanupLoop]
    split
    · exact min_le_left _ _
    · rename_i hbig
      have hlen : cap < a.tiles.length := by omega
      split
      · exact ih a hnd
      · have h1 := ih { a with tiles := eraseKey a.tiles e.1,
                               tileAccessTimes := eraseKey a.tileAccessTimes e.1 }
          (nodupKeys_eraseKey e.1 a.tiles hnd)
        have h2 := eraseKey_length_ge e.1 a.tiles hnd
        have h3 : cap ≤ (eraseKey a.tiles e.1).length := by omega
        calc min a.tiles.length cap ≤ cap := min_le_right _ _
          _ ≤ min (eraseKey a.tiles e.1).length cap := le_min h3 (le_refl cap)
          _ ≤ _ := h1

/-- If the loop terminates above capacity, every surviving tile whose
key is covered by the visible set or the remaining worklist is visible.
With the worklist covering all tile keys this forces every survivor to
be visible. -/
theorem cleanupLoop_cap_or_visible (cap : ℕ) (vis : List TileKey) :
    ∀ (l : List (TileKey × ℕ)) (a : St),
      (∀ k, hasKey a.tiles k = true → memKey vis k = true ∨ ∃ t, (k, t) ∈ l) →
      (cleanupLoop cap vis l a).tiles.length ≤ cap
    ∨ ∀ k, hasKey (cleanupLoop cap vis l a).tiles k = true → memKey vis k = true := by
  intro l
  induction l with
  | nil =>
    intro a hcov
    right
    intro k hk
    rcases hcov k hk with h | ⟨t, ht⟩
    · exact h
    · exact absurd ht (List.not_mem_nil _)
  | cons e rest ih =>
    intro a hcov
    simp only [cleanupLoop]
    split
    · rename_i hle
      left
      exact hle
    · split
      · rename_i hbig hvis
        refine ih a ?_
        intro k hk
        rcases hcov k hk with h | ⟨t, ht⟩
        · exact Or.inl h
        · rcases List.mem_cons.mp ht with he | hr
          · left
            have : k = e.1 := by rw [Prod.ext_iff] at he; exact he.1
            rw [this]
            exact hvis
          · exact Or.inr ⟨t, hr⟩
      · rename_i hbig hnotvis
        refine ih _ ?_
        intro k hk
        have hk2 : hasKey a.tiles k = true := by
          have h3 : hasKey (eraseKey a.tiles e.1) k = true := hk
          rw [hasKey_eraseKey] at h3
          by_cases hke : k = e.1
          · rw [if_pos hke] at h3; exact absurd h3 (by simp)
          · rw [if_neg hke] at h3; exact h3
        have hke : ¬ k = e.1 := by
          intro hke
          have h3 : hasKey (eraseKey a.tiles e.1) k = true := hk
          rw [hasKey_eraseKey, if_pos hke] at h3
          exact absurd h3 (by simp)
        rcases hcov k hk2 with h | ⟨t, ht⟩
        · exact Or.inl h
        · rcases List.mem_cons.mp ht with he | hr
          · exact absurd (by rw [Prod.ext_iff] at he; exact he.1) hke
          · exact Or.inr ⟨t, hr⟩

/-- The loop pops a key from both mappings together, so equal key sets
stay equal. -/
theorem cleanupLoop_keysEq (cap : ℕ) (vis : List TileKey) :
    ∀ (l : List (TileKey × ℕ)) (a : St),
      (∀ k, hasKey a.tiles k = hasKey a.tileAccessTimes k) →
      ∀ k, hasKey (cleanupLoop cap vis l a).tiles k
         = hasKey (cleanupLoop cap vis l a).tileAccessTimes k := by
  intro l
  induction l with
  | nil => intro a h; exact h
  | cons e rest ih =>
    intro a h
    simp only [cleanupLoop]
    split
    · exact h
    · split
      · exact ih a h
      · refine ih _ ?_
        intro k
        show hasKey (eraseKey a.tiles e.1) k = hasKey (eraseKey a.tileAccessTimes e.1) k
        rw [hasKey_eraseKey, hasKey_eraseKey, h k]

theorem cleanupLoop_hasKey_sub (cap : ℕ) (vis : List TileKey) (k : TileKey)
    (l : List (TileKey × ℕ)) (a : St)
    (h : hasKey (cleanupLoop cap vis l a).tiles k = true) :
    hasKey a.tiles k = true := by
  unfold hasKey at h ⊢
  cases hv : alookup (cleanupLoop cap vis l a).tiles k with
  | none => rw [hv] at h; exact absurd h (by simp)
  | some v => rw [cleanupLoop_sub cap vis k v l a hv]; rfl

theorem cleanupLoop_visible_hasKey (cap : ℕ) (vis : List TileKey) (k : TileKey)
    (hk : memKey vis k = true) (l : List (TileKey × ℕ)) (a : St) :
    hasKey (cleanupLoop cap vis l a).tiles k = hasKey a.tiles k := by
  unfold hasKey
  rw [(cleanupLoop_visible_keep cap vis k hk l a).1]

/-- The loop removes strictly in ascending timestamp order: a removed
key never has a later timestamp than a surviving non-visible key. -/
theorem cleanupLoop_lru (cap : ℕ) (vis : List TileKey) :
    ∀ (l : List (TileKey × ℕ)) (a : St) (k1 k2 : TileKey) (t1 t2 : ℕ),
      l.Pairwise (fun p q => p.2 ≤ q.2) →
      NodupKeys l →
      (k1, t1) ∈ l → (k2, t2) ∈ l →
      memKey vis k2 = false →
      hasKey a.tiles k1 = true →
      hasKey (cleanupLoop cap vis l a).tiles k1 = false →
      hasKey (cleanupLoop cap vis l a).tiles k2 = true →
      t1 ≤ t2 := by
  intro l
  induction l with
  | nil =>
    intro a k1 t1 k2 t2 _ _ h1 _ _ _ _ _
    exact absurd h1 (List.not_mem_nil _)
  | cons e rest ih =>
    intro a k1 k2 t1 t2 hsorted hnodup h1 h2 hk2vis h5 h6 h7
    have hk1notvis : memKey vis k1 = false := by
      cases hmem : memKey vis k1 with
      | false => rfl
      | true =>
        rw [cleanupLoop_visible_hasKey cap vis k1 hmem (e :: rest) a, h5] at h6
        exact absurd h6 (by simp)
    have hsortedr := (List.pairwise_cons.mp hsorted).2
    have hheadle := (List.pairwise_cons.mp hsorted).1
    have hnodupr : NodupKeys rest := (List.nodup_cons.mp hnodup).2
    have hheadnotin : e.1 ∉ rest.map Prod.fst := (List.nodup_cons.mp hnodup).1
    by_cases hle : a.tiles.length ≤ cap
    · simp only [cleanupLoop, if_pos hle] at h6
      rw [h5] at h6
      exact absurd h6 (by simp)
    · by_cases hv : memKey vis e.1 = true
      · simp only [cleanupLoop, if_neg hle, hv, if_pos, ite_true, reduceIte] at h6 h7
        have hk1e : ¬ k1 = e.1 := fun h => by
          rw [h] at hk1notvis; rw [hv] at hk1notvis; exact absurd hk1notvis (by simp)
        have hk2e : ¬ k2 = e.1 := fun h => by
          rw [h] at hk2vis; rw [hv] at hk2vis; exact absurd hk2vis (by simp)
        have h1r : (k1, t1) ∈ rest := by
          rcases List.mem_cons.mp h1 with h | h
          · exact absurd (by rw [Prod.ext_iff] at h; exact h.1) hk1e
          · exact h
        have h2r : (k2, t2) ∈ rest := by
          rcases List.mem_cons.mp h2 with h | h
          · exact absurd (by rw [Prod.ext_iff] at h; exact h.1) hk2e
          · exact h
        exact ih a k1 k2 t1 t2 hsortedr hnodupr h1r h2r hk2vis h5 h6 h7
      · have hvfalse : memKey vis e.1 = false := by
          cases hh : memKey vis e.1 with
          | false => rfl
          | true => exact absurd hh hv
        simp only [cleanupLoop, if_neg hle, hvfalse, reduceIte] at h6 h7
        have hk2e : ¬ k2 = e.1 := by
          intro h
          rw [h] at h7
          have := cleanupLoop_hasKey_sub cap vis e.1 rest _ h7
          rw [hasKey_eraseKey, if_pos rfl] at this
          exact absurd this (by simp)
        have h2r : (k2, t2) ∈ rest := by
          rcases List.mem_cons.mp h2 with h | h
          · exact absurd (by rw [Prod.ext_iff] at h; exact h.1) hk2e
          · exact h
        by_cases hk1e : k1 = e.1
        · have ht1 : t1 = e.2 := by
            rcases List.mem_cons.mp h1 with h | h
            · rw [Prod.ext_iff] at h; exact h.2
            · refine absurd ?_ hheadnotin
              rw [hk1e] at h
              simpa using List.mem_map_of_mem Prod.fst h
          rw [ht1]
          exact hheadle (k2, t2) h2r
        · have h1r : (k1, t1) ∈ rest := by
            rcases List.mem_cons.mp h1 with h | h
            · exact absurd (by rw [Prod.ext_iff] at h; exact h.1) hk1e
            · exact h
          have h5r : hasKey (eraseKey a.tiles e.1) k1 = true := by
            rw [hasKey_eraseKey, if_neg hk1e]
            exact h5
          exact ih _ k1 k2 t1 t2 hsortedr hnodupr h1r h2r hk2vis h5r h6 h7

theorem alookup_mem {α : Type} (k : TileKey) (v : α) :
    ∀ l : List (TileKey × α), alookup l k = some v → (k, v) ∈ l := by
  intro l
  induction l with
  | nil => intro h; exact absurd h (by simp)
  | cons p r ih =>
    intro h
    rw [alookup_cons] at h
    by_cases hpk : p.1 = k
    · rw [if_pos hpk] at h
      have hv : p.2 = v := Option.some.inj h
      have hp : p = (k, v) := by rw [Prod.ext_iff]; exact ⟨hpk, hv⟩
      rw [← hp]
      exact List.mem_cons_self p r
    · rw [if_neg hpk] at h
      exact List.mem_cons_of_mem p (ih h)

theorem hasKey_exists {α : Type} (l : List (TileKey × α)) (k : TileKey)
    (h : hasKey l k = true) : ∃ v, alookup l k = some v := by
  unfold hasKey at h
  exact Option.isSome_iff_exists.mp h

theorem hasKey_sub_of_covers {α β : Type} (l1 : List (TileKey × α)) (l2 : List (TileKey × β))
    (h : ∀ p ∈ l1, hasKey l2 p.1 = true) :
    ∀ k, hasKey l1 k = true → hasKey l2 k = true := by
  intro k hk
  obtain ⟨v, hv⟩ := hasKey_exists l1 k hk
  exact h (k, v) (alookup_mem k v l1 hv)

theorem keysEq_of_covers (s : St)
    (h1 : ∀ p ∈ s.tiles, hasKey s.tileAccessTimes p.1 = true)
    (h2 : ∀ p ∈ s.tileAccessTimes, hasKey s.tiles p.1 = true) : KeysEq s := by
  intro k
  cases ht : hasKey s.tiles k with
  | true =>
    rw [hasKey_sub_of_covers s.tiles s.tileAccessTimes h1 k ht]
  | false =>
    cases hu : hasKey s.tileAccessTimes k with
    | true =>
      rw [hasKey_sub_of_covers s.tileAccessTimes s.tiles h2 k hu] at ht
      exact ht.symm
    | false => rfl

/-- C1, amended: for every store state in which every tile key has an
access-timestamp record (and the dict key sets are duplicate-free, as
Python guarantees), the eviction pass (i) is the identity when the
store is at or under the zoom-scaled capacity, (ii) only removes
entries, never changing a surviving tile, (iii) never touches a
visible key, (iv) removes in ascending order of access timestamps
(LRU), (v) stops as soon as the count reaches the capacity, and (vi)
ends at or under capacity unless every remaining tile is visible. -/
theorem C1_amended (s : St)
    (hnt : NodupKeys s.tiles) (hna : NodupKeys s.tileAccessTimes)
    (hsub : ∀ k, hasKey s.tiles k = true → hasKey s.tileAccessTimes k = true) :
    (s.tiles.length ≤ get_max_tiles_for_zoom s → cleanup_unused_tiles s = s)
  ∧ (∀ k v, alookup (cleanup_unused_tiles s).tiles k = some v → alookup s.tiles k = some v)
  ∧ (∀ k, memKey (get_visible_tiles s) k = true →
      alookup (cleanup_unused_tiles s).tiles k = alookup s.tiles k)
  ∧ (∀ k1 k2 t1 t2,
      alookup s.tileAccessTimes k1 = some t1 →
      alookup s.tileAccessTimes k2 = some t2 →
      hasKey s.tiles k1 = true →
      hasKey (cleanup_unused_tiles s).tiles k1 = false →
      hasKey (cleanup_unused_tiles s).tiles k2 = true →
      memKey (get_visible_tiles s) k2 = false →
      t1 ≤ t2)
  ∧ (min s.tiles.length (get_max_tiles_for_zoom s) ≤ (cleanup_unused_tiles s).tiles.length)
  ∧ ((cleanup_unused_tiles s).tiles.length ≤ get_max_tiles_for_zoom s
      ∨ ∀ k, hasKey (cleanup_unused_tiles s).tiles k = true →
          memKey (get_visible_tiles s) k = true) := by
  by_cases hle : s.tiles.length ≤ get_max_tiles_for_zoom s
  · have hid : cleanup_unused_tiles s = s := by
      unfold cleanup_unused_tiles
      rw [if_pos hle]
    refine ⟨fun _ => hid, ?_, ?_, ?_, ?_, ?_⟩
    · intro k v h; rw [hid] at h; exact h
    · intro k _; rw [hid]
    · intro k1 k2 t1 t2 _ _ h5 h6 _ _
      rw [hid] at h6
      rw [h5] at h6
      exact absurd h6 (by simp)
    · rw [hid]; exact min_le_left _ _
    · left; rw [hid]; exact hle
  · have hcl : cleanup_unused_tiles s
        = cleanupLoop (get_max_tiles_for_zoom s) (get_visible_tiles s)
            (sortByTime s.tileAccessTimes) s := by
      unfold cleanup_unused_tiles
      rw [if_neg hle]
    refine ⟨fun h => absurd h hle, ?_, ?_, ?_, ?_, ?_⟩
    · intro k v h
      rw [hcl] at h
      exact cleanupLoop_sub _ _ k v _ s h
    · intro k hk
      rw [hcl]
      exact (cleanupLoop_visible_keep _ _ k hk _ s).1
    · intro k1 k2 t1 t2 ht1 ht2 h5 h6 h7 hk2vis
      rw [hcl] at h6 h7
      exact cleanupLoop_lru _ _ (sortByTime s.tileAccessTimes) s k1 k2 t1 t2
        (sortByTime_sorted _) (sortByTime_nodupKeys _ hna)
        ((sortByTime_perm _).mem_iff.mpr (alookup_mem k1 t1 _ ht1))
        ((sortByTime_perm _).mem_iff.mpr (alookup_mem k2 t2 _ ht2))
        hk2vis h5 h6 h7
    · rw [hcl]
      exact cleanupLoop_length_ge _ _ _ s hnt
    · rw [hcl]
      refine cleanupLoop_cap_or_visible _ _ _ s ?_
      intro k hk
      right
      obtain ⟨t, ht⟩ := hasKey_exists s.tileAccessTimes k (hsub k hk)
      exact ⟨t, (sortByTime_perm _).mem_iff.mpr (alookup_mem k t _ ht)⟩



/-- Witness for C1 at concrete states: the pass is the identity under
capacity, and on the over-capacity store it never drops below the
capacity floor. -/
theorem C1_amended_witness :
    cleanup_unused_tiles c1SmallState = c1SmallState
  ∧ min c1EvictState.tiles.length (get_max_tiles_for_zoom c1EvictState)
      ≤ (cleanup_unused_tiles c1EvictState).tiles.length := by
  constructor
  · exact (C1_amended c1SmallState (by unfold NodupKeys; decide) (by unfold NodupKeys; decide)
      (hasKey_sub_of_covers _ _ (by decide))).1 (by decide)
  · exact (C1_amended c1EvictState (by unfold NodupKeys; decide) (by unfold NodupKeys; decide)
      (hasKey_sub_of_covers _ _ (by decide))).2.2.2.2.1

/-! ## Lemmas about dict assignment and `get_tile` -/

theorem alookup_map_ne {α : Type} (k j : TileKey) (v : α) (hjk : ¬ j = k) :
    ∀ l : List (TileKey × α),
      alookup (l.map (fun p => if p.1 = k then (k, v) else p)) j = alookup l j := by
  intro l
  induction l with
  | nil => simp
  | cons p r ih =>
    rw [List.map_cons, alookup_cons, alookup_cons]
    by_cases hpk : p.1 = k
    · rw [if_pos hpk]
      dsimp only
      have hkj : ¬ k = j := fun h => hjk h.symm
      have hpj : ¬ p.1 = j := fun h => hjk (by rw [← h, hpk])
      rw [if_neg hkj, if_neg hpj, ih]
    · rw [if_neg hpk]
      by_cases hpj : p.1 = j
      · rw [if_pos hpj, if_pos hpj]
      · rw [if_neg hpj, if_neg hpj, ih]

theorem alookup_map_self {α : Type} (k : TileKey) (v : α) :
    ∀ l : List (TileKey × α), hasKey l k = true →
      alookup (l.map (fun p => if p.1 = k then (k, v) else p)) k = some v := by
  intro l
  induction l with
  | nil => intro h; exact absurd h (by simp [hasKey])
  | cons p r ih =>
    intro h
    rw [List.map_cons, alookup_cons]
    by_cases hpk : p.1 = k
    · rw [if_pos hpk]
      dsimp only
      rw [if_pos rfl]
    · rw [if_neg hpk, if_neg hpk]
      have hr : hasKey r k = true := by
        unfold hasKey at h ⊢
        rw [alookup_cons, if_neg hpk] at h
        exact h
      exact ih hr

theorem alookup_append_single {α : Type} (k j : TileKey) (v : α) :
    ∀ l : List (TileKey × α), hasKey l k = false →
      alookup (l ++ [(k, v)]) j = if j = k then some v else alookup l j := by
  intro l
  induction l with
  | nil =>
    intro _
    by_cases hjk : j = k
    · simp [alookup_cons, hjk]
    · have hkj : ¬ k = j := fun h => hjk h.symm
      simp [alookup_cons, hjk, hkj]
  | cons p r ih =>
    intro h
    have hpk : ¬ p.1 = k := by
      intro hpk
      unfold hasKey at h
      rw [alookup_cons, if_pos hpk] at h
      exact absurd h (by simp)
    have hr : hasKey r k = false := by
      unfold hasKey at h ⊢
      rw [alookup_cons, if_neg hpk] at h
      exact h
    rw [List.cons_append, alookup_cons, alookup_cons, ih hr]
    by_cases hpj : p.1 = j
    · have hjk : ¬ j = k := fun hh => hpk (by rw [hpj, hh])
      rw [if_pos hpj, if_pos hpj, if_neg hjk]
    · rw [if_neg hpj, if_neg hpj]

/-- Python dict assignment through `alookup`: the assigned key reads the
new value, every other key is untouched. -/
theorem alookup_upsert {α : Type} (l : List (TileKey × α)) (k j : TileKey) (v : α) :
    alookup (upsert l k v) j = if j = k then some v else alookup l j := by
  unfold upsert
  by_cases h : hasKey l k = true
  · rw [if_pos h]
    by_cases hjk : j = k
    · rw [if_pos hjk, hjk]
      exact alookup_map_self k v l h
    · rw [if_neg hjk]
      exact alookup_map_ne k j v hjk l
  · have h2 : hasKey l k = false := by
      cases hh : hasKey l k with
      | true => exact absurd hh h
      | false => rfl
    rw [h2]
    simp only [Bool.false_eq_true, if_false]
    exact alookup_append_single k j v l h2

theorem hasKey_upsert {α : Type} (l : List (TileKey × α)) (k j : TileKey) (v : α) :
    hasKey (upsert l k v) j = (hasKey l j || decide (j = k)) := by
  unfold hasKey
  rw [alookup_upsert]
  by_cases hjk : j = k
  · simp [hjk]
  · simp [hjk]

/-- `get_tile` on a present key: the stored tile is returned, only the
access time (and clock) moves. -/
theorem get_tile_present (s : St) (k : TileKey) (t : CanvasTile)
    (h : alookup s.tiles k = some t) :
    get_tile s k = (t, { s with tileAccessTimes := upsert s.tileAccessTimes k s.clock,
                                clock := s.clock + 1 }) := by
  unfold get_tile
  dsimp only
  rw [h]

/-- `get_tile` on an absent key: the access time is recorded, the
creation counter moves (with a cleanup pass at the threshold), and a
blank tile is appended. -/
theorem get_tile_absent (s : St) (k : TileKey)
    (h : alookup s.tiles k = none) :
    get_tile s k =
      (let s2 : St := { s with tileAccessTimes := upsert s.tileAccessTimes k s.clock,
                               clock := s.clock + 1,
                               cleanupCounter := s.cleanupCounter + 1 }
       let s3 : St := if s2.cleanupThreshold ≤ s2.cleanupCounter
                      then { cleanup_unused_tiles s2 with cleanupCounter := 0 }
                      else s2
       (blankTile s3.tileSize, { s3 with tiles := upsert s3.tiles k (blankTile s3.tileSize) })) := by
  unfold get_tile
  dsimp only
  rw [h]

theorem hasKey_false_none {α : Type} (l : List (TileKey × α)) (k : TileKey)
    (h : hasKey l k = false) : alookup l k = none := by
  unfold hasKey at h
  exact Option.not_isSome_iff_eq_none.mp (by rw [h]; simp)

/-- One eviction pass only rewrites the two store mappings. -/
theorem cleanup_frame (s : St) : ∃ t u,
    cleanup_unused_tiles s = { s with tiles := t, tileAccessTimes := u } := by
  unfold cleanup_unused_tiles
  dsimp only
  split
  · exact ⟨s.tiles, s.tileAccessTimes, rfl⟩
  · exact cleanupLoop_frame _ _ _ s

/-- One eviction pass never touches a visible key. -/
theorem cleanup_visible_keep (s : St) (k : TileKey)
    (hk : memKey (get_visible_tiles s) k = true) :
    alookup (cleanup_unused_tiles s).tiles k = alookup s.tiles k
  ∧ alookup (cleanup_unused_tiles s).tileAccessTimes k = alookup s.tileAccessTimes k := by
  unfold cleanup_unused_tiles
  dsimp only
  split
  · exact ⟨rfl, rfl⟩
  · exact cleanupLoop_visible_keep _ _ k hk _ s

/-! ## Claim C3, amended -/

/-- C3, amended: `clear_canvas` empties the tile mapping but leaves the
access-timestamp mapping untouched (so the two key sets need not agree
after a clear); an eviction pass pops keys from both mappings together
and so preserves key-set equality; `get_tile` preserves key-set
equality on access to a present key, and on creation of a new key when
no cleanup pass fires. -/
theorem C3_amended (s : St) :
    ((clear_canvas s).tiles = [] ∧ (clear_canvas s).tileAccessTimes = s.tileAccessTimes)
  ∧ (KeysEq s → KeysEq (cleanup_unused_tiles s))
  ∧ (∀ k, KeysEq s → hasKey s.tiles k = true → KeysEq ((get_tile s k).2))
  ∧ (∀ k, KeysEq s → hasKey s.tiles k = false →
      s.cleanupCounter + 1 < s.cleanupThreshold → KeysEq ((get_tile s k).2)) := by
  refine ⟨⟨rfl, rfl⟩, ?_, ?_, ?_⟩
  · intro hkeq
    unfold cleanup_unused_tiles
    dsimp only
    split
    · exact hkeq
    · exact cleanupLoop_keysEq _ _ _ s hkeq
  · intro k hkeq hk
    obtain ⟨t, ht⟩ := hasKey_exists s.tiles k hk
    rw [get_tile_present s k t ht]
    intro j
    show hasKey s.tiles j = hasKey (upsert s.tileAccessTimes k s.clock) j
    rw [hasKey_upsert]
    by_cases hjk : j = k
    · rw [hjk, hk]
      simp [hjk]
    · rw [hkeq j]
      simp [hjk]
  · intro k hkeq hk hlt
    have hn : alookup s.tiles k = none := hasKey_false_none s.tiles k hk
    rw [get_tile_absent s k hn]
    dsimp only
    rw [if_neg (by omega : ¬ s.cleanupThreshold ≤ s.cleanupCounter + 1)]
    intro j
    show hasKey (upsert s.tiles k (blankTile s.tileSize)) j
       = hasKey (upsert s.tileAccessTimes k s.clock) j
    rw [hasKey_upsert, hasKey_upsert, hkeq j]


/-- Witness for the amended C3 at concrete states. -/
theorem C3_amended_witness :
    ((clear_canvas c3EqState).tiles = []
      ∧ (clear_canvas c3EqState).tileAccessTimes = c3EqState.tileAccessTimes)
  ∧ KeysEq (cleanup_unused_tiles c3EqState)
  ∧ KeysEq ((get_tile c3EqState (0, 0)).2)
  ∧ KeysEq ((get_tile c3EqState (1, 0)).2) := by
  have hkeq : KeysEq c3EqState :=
    keysEq_of_covers c3EqState (by decide) (by decide)
  refine ⟨(C3_amended c3EqState).1, ?_, ?_, ?_⟩
  · exact (C3_amended c3EqState).2.1 hkeq
  · exact (C3_amended c3EqState).2.2.1 (0, 0) hkeq (by decide)
  · exact (C3_amended c3EqState).2.2.2 (1, 0) hkeq (by decide) (by decide)

/-! ## Claim C5, amended -/

/-- C5, amended: within `get_tile`, no eviction pass runs on access to
an already-present tile (the store and counter do not move); on a
creation with the counter still below the threshold the counter just
increments; exactly when the incremented counter reaches the threshold
(25 in `init_canvas`), a cleanup pass runs on the store and the counter
resets to 0.  A wheel zoom change runs no eviction pass: tiles, access
times and the counter are untouched. -/
theorem C5_amended (s : St) (k : TileKey) :
    (∀ t, alookup s.tiles k = some t →
      ((get_tile s k).2.tiles = s.tiles
       ∧ (get_tile s k).2.cleanupCounter = s.cleanupCounter))
  ∧ (alookup s.tiles k = none → s.cleanupCounter + 1 < s.cleanupThreshold →
      ((get_tile s k).2.tiles = upsert s.tiles k (blankTile s.tileSize)
       ∧ (get_tile s k).2.cleanupCounter = s.cleanupCounter + 1))
  ∧ (alookup s.tiles k = none → s.cleanupThreshold ≤ s.cleanupCounter + 1 →
      ((get_tile s k).2.cleanupCounter = 0
       ∧ (get_tile s k).2.tiles
           = upsert (cleanup_unused_tiles
               { s with tileAccessTimes := upsert s.tileAccessTimes k s.clock,
                        clock := s.clock + 1,
                        cleanupCounter := s.cleanupCounter + 1 }).tiles
             k (blankTile s.tileSize)))
  ∧ (∀ (mousePos : ℚ × ℚ) (dy : ℤ) (ctrl : Bool),
      (wheelEvent s mousePos dy ctrl).tiles = s.tiles
      ∧ (wheelEvent s mousePos dy ctrl).tileAccessTimes = s.tileAccessTimes
      ∧ (wheelEvent s mousePos dy ctrl).cleanupCounter = s.cleanupCounter) := by
  refine ⟨?_, ?_, ?_, ?_⟩
  · intro t ht
    rw [get_tile_present s k t ht]
    exact ⟨rfl, rfl⟩
  · intro hn hlt
    rw [get_tile_absent s k hn]
    dsimp only
    rw [if_neg (by omega : ¬ s.cleanupThreshold ≤ s.cleanupCounter + 1)]
    exact ⟨rfl, rfl⟩
  · intro hn hge
    rw [get_tile_absent s k hn]
    dsimp only
    rw [if_pos (by omega : s.cleanupThreshold ≤ s.cleanupCounter + 1)]
    constructor
    · rfl
    · obtain ⟨t, u, hcl⟩ := cleanup_frame
        { s with tileAccessTimes := upsert s.tileAccessTimes k s.clock,
                 clock := s.clock + 1,
                 cleanupCounter := s.cleanupCounter + 1 }
      rw [hcl]
  · intro mousePos dy ctrl
    cases ctrl
    · exact ⟨rfl, rfl, rfl⟩
    · unfold wheelEvent
      cases h : s.selectedText <;>
        simp only [reduceIte] <;> split <;> split <;> exact ⟨rfl, rfl, rfl⟩


/-- Witness for the amended C5 at concrete states. -/
theorem C5_amended_witness :
    ((get_tile c1EvictState (0, 5)).2.tiles = c1EvictState.tiles
      ∧ (get_tile c1EvictState (0, 5)).2.cleanupCounter = c1EvictState.cleanupCounter)
  ∧ ((get_tile c1SmallState (0, 0)).2.tiles
        = upsert c1SmallState.tiles (0, 0) (blankTile c1SmallState.tileSize)
      ∧ (get_tile c1SmallState (0, 0)).2.cleanupCounter = c1SmallState.cleanupCounter + 1)
  ∧ (get_tile c5NearState (0, 0)).2.cleanupCounter = 0
  ∧ (∀ dy : ℤ, (wheelEvent c5NearState (0, 0) dy true).tiles = c5NearState.tiles) := by
  refine ⟨?_, ?_, ?_, ?_⟩
  · exact (C5_amended c1EvictState (0, 5)).1 (blankTile 256) (by decide)
  · exact (C5_amended c1SmallState (0, 0)).2.1 (by decide) (by decide)
  · exact ((C5_amended c5NearState (0, 0)).2.2.1 (by decide) (by decide)).1
  · intro dy
    exact ((C5_amended c5NearState (0, 0)).2.2.2 (0, 0) dy true).1

/-! ## The tile-store effect of one render-pass `get_tile` call -/

theorem memKey_iff_mem (l : List TileKey) (k : TileKey) :
    memKey l k = true ↔ k ∈ l := by
  unfold memKey
  rw [List.any_eq_true]
  constructor
  · rintro ⟨j, hj, hdec⟩
    have : j = k := of_decide_eq_true hdec
    rw [← this]; exact hj
  · intro h
    exact ⟨k, h, by simp⟩

/-- `get_tile` only rewrites the store mappings and counters, and
advances the clock by one. -/
theorem get_tile_frame (s : St) (k : TileKey) : ∃ t u c,
    (get_tile s k).2 = { s with tiles := t, tileAccessTimes := u,
                                cleanupCounter := c, clock := s.clock + 1 } := by
  cases h : alookup s.tiles k with
  | some t0 =>
    rw [get_tile_present s k t0 h]
    exact ⟨s.tiles, upsert s.tileAccessTimes k s.clock, s.cleanupCounter, rfl⟩
  | none =>
    rw [get_tile_absent s k h]
    dsimp only
    split
    · obtain ⟨t, u, hcl⟩ := cleanup_frame
        { s with tileAccessTimes := upsert s.tileAccessTimes k s.clock,
                 clock := s.clock + 1,
                 cleanupCounter := s.cleanupCounter + 1 }
      rw [hcl]
      exact ⟨upsert t k (blankTile s.tileSize), u, 0, rfl⟩
    · exact ⟨upsert s.tiles k (blankTile s.tileSize),
             upsert s.tileAccessTimes k s.clock, s.cleanupCounter + 1, rfl⟩

theorem get_tile_clock (s : St) (k : TileKey) :
    ((get_tile s k).2).clock = s.clock + 1 := by
  obtain ⟨t, u, c, h⟩ := get_tile_frame s k
  rw [h]

theorem get_tile_tileSize (s : St) (k : TileKey) :
    ((get_tile s k).2).tileSize = s.tileSize := by
  obtain ⟨t, u, c, h⟩ := get_tile_frame s k
  rw [h]

theorem get_tile_visible (s : St) (k : TileKey) :
    get_visible_tiles ((get_tile s k).2) = get_visible_tiles s := by
  obtain ⟨t, u, c, h⟩ := get_tile_frame s k
  rw [h]
  rfl

/-- Effect of one `get_tile a j` on the entries of a visible key `k`:
other visible keys are untouched (eviction skips them); the fetched key
ends present - freshly blank if it was absent, unchanged if present -
with its access time set to the current clock. -/
theorem get_tile_step_alookup (a : St) (j k : TileKey)
    (hk : memKey (get_visible_tiles a) k = true) :
    (¬ k = j →
        alookup ((get_tile a j).2).tiles k = alookup a.tiles k
      ∧ alookup ((get_tile a j).2).tileAccessTimes k = alookup a.tileAccessTimes k)
  ∧ (k = j →
        (alookup a.tiles k = none →
          alookup ((get_tile a j).2).tiles k = some (blankTile a.tileSize))
      ∧ (∀ v, alookup a.tiles k = some v →
          alookup ((get_tile a j).2).tiles k = some v)
      ∧ alookup ((get_tile a j).2).tileAccessTimes k = some a.clock) := by
  cases h : alookup a.tiles j with
  | some t0 =>
    rw [get_tile_present a j t0 h]
    constructor
    · intro hkj
      refine ⟨rfl, ?_⟩
      show alookup (upsert a.tileAccessTimes j a.clock) k = alookup a.tileAccessTimes k
      rw [alookup_upsert, if_neg hkj]
    · intro hkj
      subst hkj
      refine ⟨?_, ?_, ?_⟩
      · intro hnone
        rw [hnone] at h
        exact absurd h (by simp)
      · intro v hv
        exact hv
      · show alookup (upsert a.tileAccessTimes k a.clock) k = some a.clock
        rw [alookup_upsert, if_pos rfl]
  | none =>
    rw [get_tile_absent a j h]
    dsimp only
    split
    · rename_i hthr
      have hk2 : memKey (get_visible_tiles
          { a with tileAccessTimes := upsert a.tileAccessTimes j a.clock,
                   clock := a.clock + 1,
                   cleanupCounter := a.cleanupCounter + 1 }) k = true := hk
      obtain ⟨hclt, hclu⟩ := cleanup_visible_keep _ k hk2
      constructor
      · intro hkj
        constructor
        · show alookup (upsert (cleanup_unused_tiles _).tiles j
              (blankTile _)) k = alookup a.tiles k
          rw [alookup_upsert, if_neg hkj, hclt]
        · show alookup (cleanup_unused_tiles _).tileAccessTimes k
              = alookup a.tileAccessTimes k
          rw [hclu]
          show alookup (upsert a.tileAccessTimes j a.clock) k = alookup a.tileAccessTimes k
          rw [alookup_upsert, if_neg hkj]
      · intro hkj
        subst hkj
        refine ⟨?_, ?_, ?_⟩
        · intro _
          show alookup (upsert (cleanup_unused_tiles _).tiles k (blankTile _)) k
              = some (blankTile a.tileSize)
          rw [alookup_upsert, if_pos rfl]
          obtain ⟨tt, uu, hclf⟩ := cleanup_frame
            { a with tileAccessTimes := upsert a.tileAccessTimes k a.clock,
                     clock := a.clock + 1,
                     cleanupCounter := a.cleanupCounter + 1 }
          rw [hclf]
        · intro v hv
          rw [hv] at h
          exact absurd h (by simp)
        · show alookup (cleanup_unused_tiles _).tileAccessTimes k = some a.clock
          rw [hclu]
          show alookup (upsert a.tileAccessTimes k a.clock) k = some a.clock
          rw [alookup_upsert, if_pos rfl]
    · constructor
      · intro hkj
        constructor
        · show alookup (upsert a.tiles j (blankTile a.tileSize)) k = alookup a.tiles k
          rw [alookup_upsert, if_neg hkj]
        · show alookup (upsert a.tileAccessTimes j a.clock) k = alookup a.tileAccessTimes k
          rw [alookup_upsert, if_neg hkj]
      · intro hkj
        subst hkj
        refine ⟨?_, ?_, ?_⟩
        · intro _
          show alookup (upsert a.tiles k (blankTile a.tileSize)) k
              = some (blankTile a.tileSize)
          rw [alookup_upsert, if_pos rfl]
        · intro v hv
          rw [hv] at h
          exact absurd h (by simp)
        · show alookup (upsert a.tileAccessTimes k a.clock) k = some a.clock
          rw [alookup_upsert, if_pos rfl]

/-- Once a visible key holds a tile, the rest of the render pass keeps
that exact tile, and its access time stays at or after any bound the
clock has passed. -/
theorem foldPaint_keep :
    ∀ (ks : List TileKey) (a : St) (k : TileKey) (w : CanvasTile) (c0 : ℕ),
      memKey (get_visible_tiles a) k = true →
      alookup a.tiles k = some w →
      (∃ ts, alookup a.tileAccessTimes k = some ts ∧ c0 ≤ ts) →
      c0 ≤ a.clock →
      alookup (ks.foldl (fun b j => (get_tile b j).2) a).tiles k = some w
    ∧ (∃ ts2, alookup (ks.foldl (fun b j => (get_tile b j).2) a).tileAccessTimes k = some ts2
          ∧ c0 ≤ ts2) := by
  intro ks
  induction ks with
  | nil =>
    intro a k w c0 _ hw hts _
    exact ⟨hw, hts⟩
  | cons j rest ih =>
    intro a k w c0 hvis hw hts hc
    rw [List.foldl_cons]
    have hvis2 : memKey (get_visible_tiles ((get_tile a j).2)) k = true := by
      rw [get_tile_visible]; exact hvis
    have hc2 : c0 ≤ ((get_tile a j).2).clock := by
      rw [get_tile_clock]; omega
    have hstep := get_tile_step_alookup a j k hvis
    by_cases hkj : k = j
    · obtain ⟨_, hsome, htime⟩ := hstep.2 hkj
      exact ih ((get_tile a j).2) k w c0 hvis2 (hsome w hw) ⟨a.clock, htime, hc⟩ hc2
    · obtain ⟨hwkeep, htkeep⟩ := hstep.1 hkj
      obtain ⟨ts, hts1, hts2⟩ := hts
      exact ih ((get_tile a j).2) k w c0 hvis2 (by rw [hwkeep]; exact hw)
        ⟨ts, by rw [htkeep]; exact hts1, hts2⟩ hc2

/-- After folding `get_tile` over a worklist of visible keys, every key
of the worklist holds a tile: its old tile if it had one, a fresh blank
tile otherwise, and its access time was refreshed during the pass. -/
theorem foldPaint_mem :
    ∀ (ks : List TileKey) (a : St) (k : TileKey),
      (∀ j, j ∈ ks → memKey (get_visible_tiles a) j = true) →
      k ∈ ks →
      (∃ t, alookup (ks.foldl (fun b j => (get_tile b j).2) a).tiles k = some t
          ∧ (alookup a.tiles k = none → t = blankTile a.tileSize)
          ∧ (∀ v, alookup a.tiles k = some v → t = v))
    ∧ (∃ ts, alookup (ks.foldl (fun b j => (get_tile b j).2) a).tileAccessTimes k = some ts
          ∧ a.clock ≤ ts) := by
  intro ks
  induction ks with
  | nil =>
    intro a k _ hk
    exact absurd hk (List.not_mem_nil k)
  | cons j rest ih =>
    intro a k hvisall hk
    rw [List.foldl_cons]
    have hvisk : memKey (get_visible_tiles a) k = true := hvisall k hk
    have hvis2 : ∀ i, i ∈ rest → memKey (get_visible_tiles ((get_tile a j).2)) i = true := by
      intro i hi
      rw [get_tile_visible]
      exact hvisall i (List.mem_cons_of_mem j hi)
    have hstep := get_tile_step_alookup a j k hvisk
    by_cases hkj : k = j
    · obtain ⟨hblank, hsome, htime⟩ := hstep.2 hkj
      have hvisk2 : memKey (get_visible_tiles ((get_tile a j).2)) k = true := by
        rw [get_tile_visible]; exact hvisk
      have hc2 : a.clock ≤ ((get_tile a j).2).clock := by
        rw [get_tile_clock]; omega
      cases halo : alookup a.tiles k with
      | none =>
        obtain ⟨hkeepT, hkeepU⟩ := foldPaint_keep rest ((get_tile a j).2) k
          (blankTile a.tileSize) a.clock hvisk2 (hblank halo)
          ⟨a.clock, htime, le_refl _⟩ hc2
        refine ⟨⟨blankTile a.tileSize, hkeepT, fun _ => rfl, ?_⟩, hkeepU⟩
        intro v hv
        exact Option.noConfusion hv
      | some v0 =>
        obtain ⟨hkeepT, hkeepU⟩ := foldPaint_keep rest ((get_tile a j).2) k v0 a.clock
          hvisk2 (hsome v0 halo) ⟨a.clock, htime, le_refl _⟩ hc2
        refine ⟨⟨v0, hkeepT, ?_, ?_⟩, hkeepU⟩
        · intro hnone
          exact Option.noConfusion hnone
        · intro v hv
          exact Option.some.inj hv
    · have hkrest : k ∈ rest := by
        rcases List.mem_cons.mp hk with h | h
        · exact absurd h hkj
        · exact h
      obtain ⟨hwkeep, htkeep⟩ := hstep.1 hkj
      obtain ⟨⟨t, hmem, hblank, hval⟩, ⟨ts, hts1, hts2⟩⟩ :=
        ih ((get_tile a j).2) k hvis2 hkrest
      refine ⟨⟨t, hmem, ?_, ?_⟩, ⟨ts, hts1, ?_⟩⟩
      · intro hnone
        have := hblank (by rw [hwkeep]; exact hnone)
        rw [this, get_tile_tileSize]
      · intro v hv
        exact hval v (by rw [hwkeep]; exact hv)
      · have : a.clock ≤ ((get_tile a j).2).clock := by rw [get_tile_clock]; omega
        omega

/-! ## Claim C10 -/

/-- C10: the render pass touches the store through `get_tile` for every
visible key (the tile-store effect of `paintEvent` is exactly the fold
of `get_tile` over `get_visible_tiles`): after a paint, every visible
key holds a tile - blank and transparent if it was absent before the
paint, the previously stored tile otherwise - and its access timestamp
was refreshed to a time at or after the clock at the start of the
pass; all creations run through the same `get_tile` counter logic as
the creations the rasteriser performs. -/
theorem C10_paint (s : St) (k : TileKey)
    (hk : memKey (get_visible_tiles s) k = true) :
    paintEvent s = (get_visible_tiles s).foldl (fun b j => (get_tile b j).2) s
  ∧ (∃ t, alookup (paintEvent s).tiles k = some t
        ∧ (alookup s.tiles k = none → t = blankTile s.tileSize)
        ∧ (∀ v, alookup s.tiles k = some v → t = v))
  ∧ (∃ ts, alookup (paintEvent s).tileAccessTimes k = some ts ∧ s.clock ≤ ts) := by
  have hmem :=
    foldPaint_mem (get_visible_tiles s) s k
      (fun j hj => (memKey_iff_mem _ j).mpr hj)
      ((memKey_iff_mem _ k).mp hk)
  exact ⟨rfl, hmem.1, hmem.2⟩

/-- Witness for C10 at a concrete state: the origin tile is visible on
the fresh canvas and the pass allocates it blank. -/
theorem C10_paint_witness :
    (∃ t, alookup (paintEvent (init_canvas 800 600)).tiles (0, 0) = some t
        ∧ (alookup (init_canvas 800 600).tiles (0, 0) = none →
            t = blankTile (init_canvas 800 600).tileSize)
        ∧ (∀ v, alookup (init_canvas 800 600).tiles (0, 0) = some v → t = v))
  ∧ (∃ ts, alookup (paintEvent (init_canvas 800 600)).tileAccessTimes (0, 0) = some ts
        ∧ (init_canvas 800 600).clock ≤ ts) :=
  ⟨(C10_paint (init_canvas 800 600) (0, 0) (by decide)).2.1,
   (C10_paint (init_canvas 800 600) (0, 0) (by decide)).2.2⟩
